import Mathlib

/-!
# media-renamer: `main.go`

A shallow embedding of `getVideoCreationTimeMetadata` (main.go, lines 104-147)
and of the constants it uses, of `ReadFileAbsolutePath` (lines 71-102) and of
the per-file step of `main` (lines 40-68).

Modelling conventions.

* A byte is a `Fin 256`; a byte slice is a `List Byte`.
* The `io.ReadSeeker` argument is a finite in-memory file: its contents and
  a read offset.  `Read` and `Seek` behave as they do for `*os.File` on a
  regular file (the only value `main` passes) and for `bytes.Reader`:
  `Read` copies as many bytes as are left, at most `len(buf)`, reports no
  error when it copied at least one byte, and reports `io.EOF` when none is
  left; `Seek` relative to the current offset fails, leaving the offset
  where it was, when the target is negative.
* `int64` arithmetic is integer arithmetic reduced to the signed 64-bit range.
  Offsets are natural numbers: a `Read` that returns no error leaves the
  offset at most at the length of the file and a seek adds less than `2 ^ 32`,
  so no offset comes near the limit of `int64`.
* `Read` ignores nothing of the buffer it is given: the bytes it does not
  overwrite stay as they were, and the caller reuses one 8-byte buffer.
* A `time.Time` is identified with its Unix seconds (the nanosecond part is
  always `0` here and `Local()` changes the presentation only).
* The `for` loop is run with a fuel: `none` means that the loop has not left
  within that many iterations.
* A Go string is the list of its bytes. The library functions `strings.ToLower`
  and `Time.Format` are parameters of the definitions that call them.
* The file system under a path is a tree of files and directories, with nodes
  for what cannot be opened, stat'ed or read; `ReadFileAbsolutePath` returns its
  list or the panic it ends in. What `main` does to the outside (printing,
  closing, renaming) is a list of events.
-/

namespace MediaRenamer

/-- One octet. -/
abbrev Byte := Fin 256

/-- The constant `appleEpochAdjustment` of main.go. -/
def appleEpochAdjustment : Int := 2082844800

/-- The tag `"moov"`. -/
def movieResourceAtomType : List Byte := [109, 111, 111, 118]

/-- The tag `"mvhd"`. -/
def movieHeaderAtomType : List Byte := [109, 118, 104, 100]

/-- The tag `"rmra"`. -/
def referenceMovieAtomType : List Byte := [114, 109, 114, 97]

/-- The tag `"cmov"`. -/
def compressedMovieAtomType : List Byte := [99, 109, 111, 118]

/-- The errors `getVideoCreationTimeMetadata` can return: the read error
`io.EOF` (the spec's `Truncated`), `errors.New("Compressed video")`
(`Compressed`), `errors.New("Reference video")` (`ReferenceMovie`) and
`errors.New("Did not find movie header atom (mvhd)")` (`HeaderNotFound`). -/
inductive ScanError where
  | EOF
  | compressedVideo
  | referenceVideo
  | didNotFindMovieHeader
  deriving DecidableEq, Repr

deriving instance DecidableEq for Except

/-- A seekable in-memory file: contents and current offset. -/
structure ReadSeeker where
  data : List Byte
  pos : Nat
  deriving DecidableEq, Repr

/-- Reduction of an integer to the range of Go's `int64`. -/
def int64 (x : Int) : Int :=
  (x + 9223372036854775808) % 18446744073709551616 - 9223372036854775808

/-- The function `binary.BigEndian.Uint32` on the first four bytes of `b`. -/
def Uint32 (b : List Byte) : Nat :=
  (b.getD 0 0).val * 16777216 + (b.getD 1 0).val * 65536
    + (b.getD 2 0).val * 256 + (b.getD 3 0).val

/-- The call `r.Read(buf)`: on success the byte count `n`, the buffer with its
first `n` bytes overwritten, and the advanced file; `io.EOF` when no byte is
left at the current offset. -/
def ReadSeeker.Read (r : ReadSeeker) (buf : List Byte) :
    Except ScanError (Nat × List Byte × ReadSeeker) :=
  let chunk := (r.data.drop r.pos).take buf.length
  if chunk.length = 0 then .error .EOF
  else .ok (chunk.length, chunk ++ buf.drop chunk.length,
            { r with pos := r.pos + chunk.length })

/-- The call `r.Seek(offset, 1)`, whose results the caller drops: the offset
moves by `offset` unless that would make it negative. -/
def ReadSeeker.Seek (r : ReadSeeker) (offset : Int) : ReadSeeker :=
  if 0 ≤ (r.pos : Int) + offset then { r with pos := ((r.pos : Int) + offset).toNat }
  else r

/-- A `time.Time`, identified with its Unix seconds. -/
abbrev Time := Int

/-- The call `time.Unix(sec, 0).Local()`. -/
def timeUnix (sec : Int) : Time := sec

/-- The `for` loop of `getVideoCreationTimeMetadata` (main.go, lines 108-121),
run for at most `fuel` iterations on the file `r` with the buffer `buf`.
`some (.ok buf, r)`: the loop left through `break` with this buffer and file;
`some (.error e, r)`: the function returned `e` from inside the loop;
`none`: the loop is still running after `fuel` iterations. -/
def scanLoop : Nat → ReadSeeker → List Byte → Option (Except ScanError (List Byte) × ReadSeeker)
  | 0, _, _ => none
  | fuel + 1, r, buf =>
    match r.Read buf with
    | .error e => some (.error e, r)
    | .ok (_, buf1, r1) =>
      if (buf1.drop 4).take 4 = movieResourceAtomType then some (.ok buf1, r1)
      else
        let atomSize := Uint32 buf1
        scanLoop fuel (r1.Seek (int64 (int64 (atomSize : Int) - 8))) buf1

/-- The part of `getVideoCreationTimeMetadata` after the loop (main.go, lines
123-146): read the next header and switch on its tag. -/
def afterMoov (r : ReadSeeker) (buf : List Byte) : Except ScanError Time × ReadSeeker :=
  match r.Read buf with
  | .error e => (.error e, r)
  | .ok (_, buf1, r1) =>
    let atomType := (buf1.drop 4).take 4
    if atomType = movieHeaderAtomType then
      match r1.Read buf1 with
      | .error e => (.error e, r1)
      | .ok (_, buf2, r2) =>
        let appleEpoch := int64 (Uint32 (buf2.drop 4) : Int)
        (.ok (timeUnix (int64 (appleEpoch - appleEpochAdjustment))), r2)
    else if atomType = compressedMovieAtomType then (.error .compressedVideo, r1)
    else if atomType = referenceMovieAtomType then (.error .referenceVideo, r1)
    else (.error .didNotFindMovieHeader, r1)

/-- The function `getVideoCreationTimeMetadata` with `fuel` loop iterations
allowed: the returned pair `(time.Time, error)` as an `Except`, together with
the file as the call leaves it; `none` when the loop is still running. -/
def getVideoCreationTimeMetadata (fuel : Nat) (videoBuffer : ReadSeeker) :
    Option (Except ScanError Time × ReadSeeker) :=
  match scanLoop fuel videoBuffer (List.replicate 8 0) with
  | none => none
  | some (.error e, r) => some (.error e, r)
  | some (.ok buf, r) => some (afterMoov r buf)

/-- The headers the loop of `getVideoCreationTimeMetadata` looks at in its
first `fuel` iterations: the contents of the buffer after each `Read` that
returned no error, in order. -/
def inspectedHeaders : Nat → ReadSeeker → List Byte → List (List Byte)
  | 0, _, _ => []
  | fuel + 1, r, buf =>
    match r.Read buf with
    | .error _ => []
    | .ok (_, buf1, r1) =>
      if (buf1.drop 4).take 4 = movieResourceAtomType then [buf1]
      else
        let atomSize := Uint32 buf1
        buf1 :: inspectedHeaders fuel (r1.Seek (int64 (int64 (atomSize : Int) - 8))) buf1

/-- The four bytes of `n` in big-endian order. -/
def be32 (n : Nat) : List Byte :=
  [Fin.ofNat (n / 16777216), Fin.ofNat (n / 65536), Fin.ofNat (n / 256), Fin.ofNat n]

/-- A file opened at offset `0`. -/
def openAt0 (data : List Byte) : ReadSeeker := { data := data, pos := 0 }

/-- The bytes of one atom, given as its tag and its payload: the size field
(header and payload together), the tag, the payload. -/
def encodeAtom (a : List Byte × List Byte) : List Byte :=
  be32 (8 + a.2.length) ++ a.1 ++ a.2

/-- The bytes of a sequence of atoms, one after the other. -/
def encodeAtoms : List (List Byte × List Byte) → List Byte
  | [] => []
  | a :: rest => encodeAtom a ++ encodeAtoms rest

/-- A well-formed atom that is not the movie resource atom: a four-byte tag
other than `"moov"` and a size that fits the 32-bit size field. -/
def LeadingAtom (a : List Byte × List Byte) : Prop :=
  a.1.length = 4 ∧ a.1 ≠ movieResourceAtomType ∧ 8 + a.2.length < 4294967296

instance (a : List Byte × List Byte) : Decidable (LeadingAtom a) := by
  unfold LeadingAtom; infer_instance

/-- Leap years of the proleptic Gregorian calendar. -/
def isLeapYear (y : Nat) : Bool :=
  y % 4 = 0 && (y % 100 != 0 || y % 400 = 0)

/-- The number of days of the year `y`. -/
def daysInYear (y : Nat) : Nat := if isLeapYear y then 366 else 365

/-- The number of days from 1 January of the year `a` to 1 January of the year
`b`: the sum of the lengths of the years `a`, ..., `b - 1`. -/
def daysBetweenNewYears (a b : Nat) : Nat :=
  ((List.range (b - a)).map (fun i => daysInYear (a + i))).sum

/-- The number of leap years among `a`, ..., `b - 1`. -/
def leapYearsBetween (a b : Nat) : Nat :=
  ((List.range (b - a)).filter (fun i => isLeapYear (a + i))).length

/-! ## The per-file step of `main` -/

/-- The bytes of an ASCII string literal. -/
def ascii (s : String) : List Byte := s.toList.map (fun c => Fin.ofNat c.toNat)

/-- The call `strings.Split(s, sep)` for a separator of one byte, as in
`strings.Split(filename, "_")`: the pieces of `s` between the occurrences of
`sep`, in order; there is always at least one piece. -/
def Split : List Byte → Byte → List (List Byte)
  | [], _ => [[]]
  | c :: rest, sep =>
    if c = sep then [] :: Split rest sep
    else
      match Split rest sep with
      | [] => [[c]]
      | piece :: pieces => (c :: piece) :: pieces

/-- The loop of `strings.ReplaceAll` for a non-empty `old`: the text is read
from left to right; where `old` starts, `new` is written and the bytes of that
occurrence are passed over (the counter says how many of them are left), so that
the occurrences replaced do not overlap. -/
def replaceFrom (old new : List Byte) : Nat → List Byte → List Byte
  | _, [] => []
  | 0, c :: rest =>
    if old.isPrefixOf (c :: rest) then new ++ replaceFrom old new (old.length - 1) rest
    else c :: replaceFrom old new 0 rest
  | k + 1, _ :: rest => replaceFrom old new k rest

/-- The call `strings.ReplaceAll(s, old, new)`. For an empty `old` the library
writes `new` before every UTF-8 sequence and at the end; every byte counts as one
sequence here, which is exact for ASCII text (`main` passes a file name as
`old`). -/
def ReplaceAll (s old new : List Byte) : List Byte :=
  if old = [] then new ++ (s.map (fun c => c :: new)).flatten
  else replaceFrom old new 0 s

/-- The call `fmt.Sprintf("VID_%s_%s", date, idx)`. -/
def SprintfVID (date idx : List Byte) : List Byte :=
  ascii "VID_" ++ date ++ ascii "_" ++ idx

/-- Lines 60-62 of main.go: the new base name, from the base name of the file
and the creation time. `Format` stands for the library call
`created.Format("20060102")`, the date of `created` in local time as `yyyymmdd`. -/
def nextName (Format : Time → List Byte) (created : Time) (filename : List Byte) : List Byte :=
  let arr := Split filename 95
  let idx := arr.getLastD []
  SprintfVID (Format created) idx

/-- What the per-file step of `main` does that can be seen from outside. -/
inductive Event where
  | printError (e : ScanError)
  | printMovie (path : List Byte) (created : Time) (nextname : List Byte)
  | close
  | rename (oldname newname : List Byte)
  | printRenameResult
  deriving DecidableEq, Repr

/-- The body of the function that `main` calls for each path (main.go, lines
50-66), for a file that `os.Open` opens, with base name `filename` and contents
`data`: what it prints, and the values of the variables `oldname` and `newname`
when it returns (both start as the empty string). `none`: the scan is still
running after `fuel` iterations. -/
def perFileBody (Format : Time → List Byte) (fuel : Nat) (path filename data : List Byte) :
    Option (List Event × List Byte × List Byte) :=
  match getVideoCreationTimeMetadata fuel (openAt0 data) with
  | none => none
  | some (.error e, _) => some ([.printError e], [], [])
  | some (.ok created, _) =>
    let nextname := nextName Format created filename
    let oldname := path
    let newname := ReplaceAll oldname filename nextname
    some ([.printMovie path created nextname], oldname, newname)

/-- The function that `main` calls for each path (main.go, lines 40-67): the
body, then the deferred function, which closes the file, calls
`os.Rename(oldname, newname)` and prints what that call returns. -/
def perFile (Format : Time → List Byte) (fuel : Nat) (path filename data : List Byte) :
    Option (List Event) :=
  match perFileBody Format fuel path filename data with
  | none => none
  | some (printed, oldname, newname) =>
    some (printed ++ [.close, .rename oldname newname, .printRenameResult])

/-- The `for` loop of `main` over the files found, each given by its path, its
base name and its contents. -/
def mainLoop (Format : Time → List Byte) (fuel : Nat) :
    List (List Byte × List Byte × List Byte) → Option (List Event)
  | [] => some []
  | (path, filename, data) :: rest =>
    match perFile Format fuel path filename data with
    | none => none
    | some events =>
      match mainLoop Format fuel rest with
      | none => none
      | some more => some (events ++ more)

/-! ## File discovery -/

mutual
/-- What a path of the file system leads to, with its base name: a file; a
directory with its entries; something `os.Open` returns an error for (a
dangling or looping symbolic link, a file the user may not read); something that
opens but whose `Stat` returns an error; a directory for which `os.ReadDir`
returns an error. -/
inductive Node where
  | file (name : List Byte)
  | dir (name : List Byte) (entries : NodeList)
  | openFails (name : List Byte)
  | statFails (name : List Byte)
  | readDirFails (name : List Byte)
/-- The entries of a directory, in the order `os.ReadDir` returns them. -/
inductive NodeList where
  | nil
  | cons (head : Node) (tail : NodeList)
end

/-- The base name of a node: `s.Name()` and `entry.Name()`. -/
def Node.name : Node → List Byte
  | .file name => name
  | .dir name _ => name
  | .openFails name => name
  | .statFails name => name
  | .readDirFails name => name

/-- The entries of a directory as a list. -/
def NodeList.toList : NodeList → List Node
  | .nil => []
  | .cons head tail => head :: tail.toList

/-- The three calls of `panic(err)` in `ReadFileAbsolutePath`: after `os.Open`
(line 74), after `fd.Stat` (line 79) and after `os.ReadDir` (line 86). -/
inductive Panic where
  | open
  | stat
  | readDir
  deriving DecidableEq, Repr

/-- The byte of the variable `separator` after `init`: a backslash on Windows,
a slash elsewhere. -/
def separatorByte (windows : Bool) : Byte := if windows then 92 else 47

/-- The variable `separator` after `init`. -/
def separator (windows : Bool) : List Byte := [separatorByte windows]

/-- The call `strings.HasSuffix(s, suffix)`. -/
def HasSuffix (s suffix : List Byte) : Bool := suffix.isSuffixOf s

mutual
/-- The function `ReadFileAbsolutePath` (main.go, lines 71-102) on a path that
leads to `node`: the list it returns, or the panic it ends in. `ToLower` stands
for the library function `strings.ToLower`. -/
def ReadFileAbsolutePath (ToLower : List Byte → List Byte) (windows : Bool) (path : List Byte) :
    Node → Except Panic (List (List Byte))
  | .openFails _ => .error .open
  | .statFails _ => .error .stat
  | .readDirFails _ => .error .readDir
  | .dir _ entries => readEntries ToLower windows path entries
  | .file name =>
    let lowerName := ToLower name
    if HasSuffix lowerName (ascii ".mov") || HasSuffix lowerName (ascii ".mp4") then .ok [path]
    else .ok []
/-- The `for` loop of `ReadFileAbsolutePath` over the entries of a directory:
the call for an entry comes before the entries after it are looked at, and a
panic in it ends the whole call. -/
def readEntries (ToLower : List Byte → List Byte) (windows : Bool) (path : List Byte) :
    NodeList → Except Panic (List (List Byte))
  | .nil => .ok []
  | .cons entry rest =>
    match ReadFileAbsolutePath ToLower windows (path ++ separator windows ++ entry.name) entry with
    | .error e => .error e
    | .ok found =>
      match readEntries ToLower windows path rest with
      | .error e => .error e
      | .ok more => .ok (found ++ more)
end

/-- The node `n` is reached from the node `node` at `path`, and `p` is its
path: the path of the start followed, for each directory gone through, by the
separator and the name of the entry taken. -/
inductive Reaches (windows : Bool) : List Byte → Node → List Byte → Node → Prop where
  | here (path : List Byte) (node : Node) : Reaches windows path node path node
  | step (path name : List Byte) (entries : NodeList) (e : Node) (p : List Byte) (n : Node) :
      e ∈ entries.toList → Reaches windows (path ++ separator windows ++ e.name) e p n →
      Reaches windows path (.dir name entries) p n

mutual
/-- Every node of the tree is a file or a directory that can be opened and
read. -/
def Node.readable : Node → Bool
  | .file _ => true
  | .dir _ entries => entries.readable
  | .openFails _ => false
  | .statFails _ => false
  | .readDirFails _ => false
/-- Every node below these entries is a file or a directory that can be opened
and read. -/
def NodeList.readable : NodeList → Bool
  | .nil => true
  | .cons e rest => e.readable && rest.readable
end

mutual
/-- A tree as a file system holds it: below every directory, no entry name
holds the separator byte and no two entries have the same name. -/
def Node.wellFormed (c : Byte) : Node → Bool
  | .dir _ entries => entries.wellFormed c
  | _ => true
/-- The entries of a well-formed directory. -/
def NodeList.wellFormed (c : Byte) : NodeList → Bool
  | .nil => true
  | .cons e rest =>
    e.wellFormed c && !(e.name.contains c) && rest.toList.all (fun e2 => e2.name != e.name)
      && rest.wellFormed c
end

/-- The function `strings.ToLower` on ASCII text. -/
def toLowerASCII (s : List Byte) : List Byte :=
  s.map (fun b => if 65 ≤ b.val ∧ b.val ≤ 90 then b + 32 else b)

/-- The offsets at which the loop of `getVideoCreationTimeMetadata` calls `Read`
in its first `fuel` iterations, in order. -/
def readOffsets : Nat → ReadSeeker → List Byte → List Nat
  | 0, _, _ => []
  | fuel + 1, r, buf =>
    r.pos ::
      match r.Read buf with
      | .error _ => []
      | .ok (_, buf1, r1) =>
        if (buf1.drop 4).take 4 = movieResourceAtomType then []
        else
          let atomSize := Uint32 buf1
          readOffsets fuel (r1.Seek (int64 (int64 (atomSize : Int) - 8))) buf1

/-! ## Arithmetic of the model -/

theorem int64_eq_self {x : Int} (h1 : -9223372036854775808 ≤ x)
    (h2 : x < 9223372036854775808) : int64 x = x := by
  unfold int64; omega

theorem Uint32_lt (b : List Byte) : Uint32 b < 4294967296 := by
  unfold Uint32
  have h0 := (b.getD 0 0).isLt
  have h1 := (b.getD 1 0).isLt
  have h2 := (b.getD 2 0).isLt
  have h3 := (b.getD 3 0).isLt
  omega

theorem seekOffset_eq (n : Nat) (h : n < 4294967296) :
    int64 (int64 (n : Int) - 8) = (n : Int) - 8 := by
  rw [int64_eq_self (x := (n : Int)) (by omega) (by omega)]
  exact int64_eq_self (by omega) (by omega)

theorem Uint32_be32_append (n : Nat) (h : n < 4294967296) (rest : List Byte) :
    Uint32 (be32 n ++ rest) = n := by
  simp [Uint32, be32, Fin.ofNat]
  omega

theorem be32_length (n : Nat) : (be32 n).length = 4 := rfl

/-! ## The two stream operations -/

theorem Read_EOF (r : ReadSeeker) (buf : List Byte) (h : r.data.length ≤ r.pos) :
    r.Read buf = .error .EOF := by
  simp [ReadSeeker.Read, List.drop_eq_nil_of_le h]

theorem Read_ok (r : ReadSeeker) (buf : List Byte) (hb : buf.length = 8)
    (h : r.pos < r.data.length) :
    r.Read buf = .ok (min 8 (r.data.length - r.pos),
      (r.data.drop r.pos).take 8 ++ buf.drop (min 8 (r.data.length - r.pos)),
      { r with pos := r.pos + min 8 (r.data.length - r.pos) }) := by
  have hlen : ((r.data.drop r.pos).take 8).length = min 8 (r.data.length - r.pos) := by
    simp
  have hne : ¬ ((r.data.drop r.pos).take 8).length = 0 := by
    rw [hlen]; omega
  simp only [ReadSeeker.Read, hb, hlen] at hne ⊢
  rw [if_neg hne]

theorem Read_full (r : ReadSeeker) (buf : List Byte) (hb : buf.length = 8)
    (h : r.pos + 8 ≤ r.data.length) :
    r.Read buf = .ok (8, (r.data.drop r.pos).take 8, { r with pos := r.pos + 8 }) := by
  rw [Read_ok r buf hb (by omega)]
  have hm : min 8 (r.data.length - r.pos) = 8 := by omega
  rw [hm]
  have : buf.drop 8 = [] := List.drop_eq_nil_of_le (by omega)
  rw [this, List.append_nil]

/-! ## The loop -/

theorem Read_length (r r1 : ReadSeeker) (buf buf1 : List Byte) (n : Nat) (hb : buf.length = 8)
    (h : r.Read buf = .ok (n, buf1, r1)) :
    buf1.length = 8 ∧ r1.data = r.data ∧ r.pos < r.data.length
      ∧ r1.pos = r.pos + min 8 (r.data.length - r.pos)
      ∧ buf1 = (r.data.drop r.pos).take 8 ++ buf.drop (min 8 (r.data.length - r.pos)) := by
  by_cases hp : r.pos < r.data.length
  · rw [Read_ok r buf hb hp] at h
    simp only [Except.ok.injEq, Prod.mk.injEq] at h
    obtain ⟨-, h2, h3⟩ := h
    subst h2 h3
    refine ⟨?_, rfl, hp, rfl, rfl⟩
    simp only [List.length_append, List.length_take, List.length_drop, hb]
    omega
  · rw [Read_EOF r buf (by omega)] at h
    cases h

theorem Seek_data (r : ReadSeeker) (off : Int) : (r.Seek off).data = r.data := by
  unfold ReadSeeker.Seek
  split_ifs <;> rfl

theorem Seek_size (r : ReadSeeker) (n : Nat) (h : n < 4294967296) :
    (r.Seek (int64 (int64 (n : Int) - 8))).pos = if 8 ≤ r.pos + n then r.pos + n - 8 else r.pos := by
  rw [seekOffset_eq n h]
  unfold ReadSeeker.Seek
  split_ifs with h1 h2 h2
  · simp only; omega
  · omega
  · omega
  · rfl

theorem scanLoop_mono (fuel k : Nat) : ∀ (r : ReadSeeker) (buf : List Byte)
    (x : Except ScanError (List Byte) × ReadSeeker),
    scanLoop fuel r buf = some x → scanLoop (fuel + k) r buf = some x := by
  induction fuel with
  | zero => intro r buf x h; simp [scanLoop] at h
  | succ n ih =>
    intro r buf x h
    rw [Nat.add_right_comm]
    rw [scanLoop] at h ⊢
    cases hr : r.Read buf with
    | error e => simp only [hr] at h ⊢; exact h
    | ok v =>
      obtain ⟨n1, buf1, r1⟩ := v
      simp only [hr] at h ⊢
      split_ifs at h ⊢ with ht
      · exact h
      · exact ih _ _ _ h

theorem scanLoop_inv (fuel : Nat) : ∀ (r r2 : ReadSeeker) (buf : List Byte)
    (res : Except ScanError (List Byte)), buf.length = 8 →
    scanLoop fuel r buf = some (res, r2) →
    r2.data = r.data ∧ ∀ b, res = .ok b → b.length = 8 := by
  induction fuel with
  | zero => intro r r2 buf res _ h; simp [scanLoop] at h
  | succ n ih =>
    intro r r2 buf res hb h
    rw [scanLoop] at h
    cases hr : r.Read buf with
    | error e =>
      simp only [hr, Option.some.injEq, Prod.mk.injEq] at h
      obtain ⟨h1, h2⟩ := h
      subst h1 h2
      exact ⟨rfl, fun b hb2 => by cases hb2⟩
    | ok v =>
      obtain ⟨n1, buf1, r1⟩ := v
      obtain ⟨hl, hd, -, -, -⟩ := Read_length r r1 buf buf1 n1 hb hr
      simp only [hr] at h
      split_ifs at h with ht
      · simp only [Option.some.injEq, Prod.mk.injEq] at h
        obtain ⟨h1, h2⟩ := h
        subst h1 h2
        exact ⟨hd, fun b hb2 => by cases hb2; exact hl⟩
      · obtain ⟨h1, h2⟩ := ih _ _ _ _ hl h
        rw [Seek_data] at h1
        exact ⟨h1.trans hd, h2⟩

theorem Read_at (pre hdr post buf : List Byte) (hb : buf.length = 8) (hh : hdr.length = 8) :
    (ReadSeeker.mk (pre ++ hdr ++ post) pre.length).Read buf
      = .ok (8, hdr, ReadSeeker.mk (pre ++ hdr ++ post) (pre.length + 8)) := by
  rw [Read_full _ buf hb (by simp only [List.length_append]; omega)]
  simp only [List.append_assoc, List.drop_left, List.take_left' hh]

theorem encodeAtom_length (a : List Byte × List Byte) (h : LeadingAtom a) :
    (encodeAtom a).length = 8 + a.2.length := by
  simp only [encodeAtom, List.length_append, be32_length, h.1]

theorem scanLoop_leading (atoms : List (List Byte × List Byte)) :
    ∀ (pre buf hdr post : List Byte) (fuel : Nat), (∀ a ∈ atoms, LeadingAtom a) →
    buf.length = 8 → hdr.length = 8 → (hdr.drop 4).take 4 = movieResourceAtomType →
    atoms.length < fuel →
    scanLoop fuel (ReadSeeker.mk (pre ++ encodeAtoms atoms ++ hdr ++ post) pre.length) buf
      = some (.ok hdr, ReadSeeker.mk (pre ++ encodeAtoms atoms ++ hdr ++ post)
          (pre.length + (encodeAtoms atoms).length + 8)) := by
  induction atoms with
  | nil =>
    intro pre buf hdr post fuel _ hb hh ht hf
    obtain ⟨f, rfl⟩ : ∃ f, fuel = f + 1 := ⟨fuel - 1, by simp at hf; omega⟩
    simp only [encodeAtoms, List.append_nil, List.length_nil, Nat.add_zero]
    rw [scanLoop, Read_at pre hdr post buf hb hh]
    simp only [ht, if_true]
  | cons a rest ih =>
    intro pre buf hdr post fuel hall hb hh ht hf
    obtain ⟨f, rfl⟩ : ∃ f, fuel = f + 1 := ⟨fuel - 1, by simp at hf; omega⟩
    have ha : LeadingAtom a := hall a (List.mem_cons_self _ _)
    have hrest : ∀ b ∈ rest, LeadingAtom b := fun b hb2 => hall b (List.mem_cons_of_mem _ hb2)
    obtain ⟨t, payload⟩ := a
    obtain ⟨ha1, ha2, ha3⟩ := ha
    simp only at ha1 ha2 ha3
    have hdata : pre ++ encodeAtoms ((t, payload) :: rest) ++ hdr ++ post
        = pre ++ (be32 (8 + payload.length) ++ t) ++ (payload ++ encodeAtoms rest ++ hdr ++ post) := by
      simp only [encodeAtoms, encodeAtom, List.append_assoc]
    have hdata2 : pre ++ encodeAtoms ((t, payload) :: rest) ++ hdr ++ post
        = (pre ++ encodeAtom (t, payload)) ++ encodeAtoms rest ++ hdr ++ post := by
      simp only [encodeAtoms, encodeAtom, List.append_assoc]
    have hlen8 : (be32 (8 + payload.length) ++ t).length = 8 := by
      simp only [List.length_append, be32_length, ha1]
    have hsz : Uint32 (be32 (8 + payload.length) ++ t) = 8 + payload.length :=
      Uint32_be32_append _ ha3 _
    have htag : ((be32 (8 + payload.length) ++ t).drop 4).take 4 ≠ movieResourceAtomType := by
      rw [List.drop_left' (be32_length _), List.take_of_length_le (by omega)]
      exact ha2
    rw [scanLoop]
    conv_lhs => rw [hdata, Read_at pre _ _ buf hb hlen8]
    simp only [if_neg htag, hsz]
    rw [← hdata, hdata2]
    have hseek : (ReadSeeker.mk (pre ++ encodeAtom (t, payload) ++ encodeAtoms rest ++ hdr ++ post)
          (pre.length + 8)).Seek (int64 (int64 ((8 + payload.length : Nat) : Int) - 8))
        = ReadSeeker.mk (pre ++ encodeAtom (t, payload) ++ encodeAtoms rest ++ hdr ++ post)
          (pre ++ encodeAtom (t, payload)).length := by
      rw [seekOffset_eq _ ha3]
      unfold ReadSeeker.Seek
      have hl := encodeAtom_length (t, payload) ⟨ha1, ha2, ha3⟩
      simp only [List.length_append, hl]
      rw [if_pos (by omega)]
      congr 1
      omega
    rw [hseek, ih (pre ++ encodeAtom (t, payload)) _ hdr post f hrest hlen8 hh ht
      (by simp only [List.length_cons] at hf; omega)]
    simp only [encodeAtoms, List.length_append, Nat.add_assoc]

theorem scanLoop_step (fuel : Nat) (r r1 : ReadSeeker) (buf buf1 : List Byte) (n1 : Nat)
    (hr : r.Read buf = .ok (n1, buf1, r1))
    (ht : (buf1.drop 4).take 4 ≠ movieResourceAtomType) :
    scanLoop (fuel + 1) r buf
      = scanLoop fuel (r1.Seek (int64 (int64 (Uint32 buf1 : Int) - 8))) buf1 := by
  rw [scanLoop, hr]
  simp only [if_neg ht]

theorem inspectedHeaders_step (fuel : Nat) (r r1 : ReadSeeker) (buf buf1 : List Byte) (n1 : Nat)
    (hr : r.Read buf = .ok (n1, buf1, r1))
    (ht : (buf1.drop 4).take 4 ≠ movieResourceAtomType) :
    inspectedHeaders (fuel + 1) r buf
      = buf1 :: inspectedHeaders fuel (r1.Seek (int64 (int64 (Uint32 buf1 : Int) - 8))) buf1 := by
  rw [inspectedHeaders, hr]
  simp only [if_neg ht]

theorem inspectedHeaders_head (fuel : Nat) (r r1 : ReadSeeker) (buf buf1 : List Byte) (n1 : Nat)
    (hr : r.Read buf = .ok (n1, buf1, r1)) : buf1 ∈ inspectedHeaders (fuel + 1) r buf := by
  rw [inspectedHeaders, hr]
  simp only
  split_ifs <;> simp

/-- When every header the loop looks at is not tagged "moov" and declares a
size of at least 8, the offset grows from one iteration to the next, and the
loop ends with `io.EOF` within `(length + 7 - pos) / 8 + 1` iterations. -/
theorem scanLoop_EOF_of_sizes (fuel : Nat) : ∀ (r : ReadSeeker) (buf : List Byte),
    buf.length = 8 → (r.data.length + 7 - r.pos) / 8 + 1 ≤ fuel →
    (∀ b ∈ inspectedHeaders fuel r buf,
      (b.drop 4).take 4 ≠ movieResourceAtomType ∧ 8 ≤ Uint32 b) →
    ∃ q, r.data.length ≤ q ∧ scanLoop fuel r buf = some (.error .EOF, ReadSeeker.mk r.data q) := by
  induction fuel with
  | zero => intro r buf _ hf _; omega
  | succ n ih =>
    intro r buf hb hf hins
    by_cases hp : r.pos < r.data.length
    · have hr := Read_ok r buf hb hp
      obtain ⟨hl, hd, -, hpos, -⟩ := Read_length r _ buf _ _ hb hr
      obtain ⟨ht, hsz⟩ := hins _ (inspectedHeaders_head n r _ buf _ _ hr)
      rw [inspectedHeaders_step n r _ buf _ _ hr ht] at hins
      rw [scanLoop_step n r _ buf _ _ hr ht]
      have hseek := Seek_size (ReadSeeker.mk r.data (r.pos + min 8 (r.data.length - r.pos)))
        _ (Uint32_lt ((r.data.drop r.pos).take 8 ++ buf.drop (min 8 (r.data.length - r.pos))))
      rw [if_pos (by omega)] at hseek
      have hdata := Seek_data (ReadSeeker.mk r.data (r.pos + min 8 (r.data.length - r.pos)))
        (int64 (int64 (Uint32 ((r.data.drop r.pos).take 8
          ++ buf.drop (min 8 (r.data.length - r.pos))) : Int) - 8))
      simp only at hseek hdata
      obtain ⟨q, hq, hres⟩ := ih _ _ hl (by rw [hdata, hseek]; omega)
        (fun b hb2 => hins b (List.mem_cons_of_mem _ hb2))
      rw [hdata] at hq hres
      exact ⟨q, hq, hres⟩
    · refine ⟨r.pos, by omega, ?_⟩
      rw [scanLoop, Read_EOF r buf (by omega)]

/-- On the 8-byte stream holding one header of size 0 tagged "free", every
iteration reads that header at offset 0 and seeks back to offset 0. -/
theorem scanLoop_size_zero (fuel : Nat) : ∀ (buf : List Byte), buf.length = 8 →
    scanLoop fuel (ReadSeeker.mk [0, 0, 0, 0, 102, 114, 101, 101] 0) buf = none
    ∧ ∀ b ∈ inspectedHeaders fuel (ReadSeeker.mk [0, 0, 0, 0, 102, 114, 101, 101] 0) buf,
        b = [0, 0, 0, 0, 102, 114, 101, 101] := by
  induction fuel with
  | zero => intro buf _; exact ⟨rfl, fun b hb => by simp [inspectedHeaders] at hb⟩
  | succ n ih =>
    intro buf hb
    have hr : (ReadSeeker.mk [0, 0, 0, 0, 102, 114, 101, 101] 0).Read buf
        = .ok (8, [0, 0, 0, 0, 102, 114, 101, 101],
            ReadSeeker.mk [0, 0, 0, 0, 102, 114, 101, 101] 8) :=
      Read_at [] [0, 0, 0, 0, 102, 114, 101, 101] [] buf hb rfl
    have ht : (([0, 0, 0, 0, 102, 114, 101, 101] : List Byte).drop 4).take 4
        ≠ movieResourceAtomType := by decide
    have hs : (ReadSeeker.mk [0, 0, 0, 0, 102, 114, 101, 101] 8).Seek
        (int64 (int64 (Uint32 [0, 0, 0, 0, 102, 114, 101, 101] : Int) - 8))
        = ReadSeeker.mk [0, 0, 0, 0, 102, 114, 101, 101] 0 := by decide
    rw [scanLoop_step n _ _ buf _ _ hr ht, inspectedHeaders_step n _ _ buf _ _ hr ht, hs]
    obtain ⟨h1, h2⟩ := ih [0, 0, 0, 0, 102, 114, 101, 101] rfl
    refine ⟨h1, fun b hb2 => ?_⟩
    rcases List.mem_cons.mp hb2 with h | h
    · exact h
    · exact h2 b h

/-! ## The code after the loop -/

theorem take_drop_header (d : List Byte) (p : Nat) :
    (((d.drop p).take 8).drop 4).take 4 = (d.drop (p + 4)).take 4 := by
  rw [List.drop_take, List.drop_drop, List.take_take]
  simp

theorem getD_take (l : List Byte) (n i : Nat) (h : i < n) : (l.take n).getD i 0 = l.getD i 0 := by
  simp only [List.getD_eq_getElem?_getD, List.getElem?_take]
  rw [if_pos h]

theorem Uint32_take (l : List Byte) (n : Nat) (h : 4 ≤ n) : Uint32 (l.take n) = Uint32 l := by
  unfold Uint32
  rw [getD_take l n 0 (by omega), getD_take l n 1 (by omega), getD_take l n 2 (by omega),
    getD_take l n 3 (by omega)]

theorem Uint32_payload (d : List Byte) (p : Nat) :
    Uint32 (((d.drop p).take 8).drop 4) = Uint32 (d.drop (p + 4)) := by
  rw [List.drop_take, List.drop_drop, Uint32_take _ _ (by omega)]

theorem int64_Uint32 (b : List Byte) : int64 (Uint32 b : Int) = (Uint32 b : Int) := by
  have h := Uint32_lt b
  exact int64_eq_self (by omega) (by omega)

theorem int64_unixSeconds (b : List Byte) :
    int64 ((Uint32 b : Int) - 2082844800) = (Uint32 b : Int) - 2082844800 := by
  have h := Uint32_lt b
  exact int64_eq_self (by omega) (by omega)

theorem creationTime_exact (b : List Byte) :
    timeUnix (int64 (int64 (Uint32 b : Int) - appleEpochAdjustment))
      = (Uint32 b : Int) - 2082844800 := by
  rw [int64_Uint32]
  show int64 ((Uint32 b : Int) - 2082844800) = _
  exact int64_unixSeconds b

/-- The code after the loop when the child header is fully present: the
switch on the tag found at offset `r.pos + 4`. -/
theorem afterMoov_child (r : ReadSeeker) (buf : List Byte) (hb : buf.length = 8)
    (h : r.pos + 8 ≤ r.data.length) :
    afterMoov r buf =
      if (r.data.drop (r.pos + 4)).take 4 = movieHeaderAtomType then
        (match (ReadSeeker.mk r.data (r.pos + 8)).Read ((r.data.drop r.pos).take 8) with
          | .error e => (.error e, ReadSeeker.mk r.data (r.pos + 8))
          | .ok (_, buf2, r2) =>
            (.ok (timeUnix (int64 (int64 (Uint32 (buf2.drop 4) : Int) - appleEpochAdjustment))), r2))
      else if (r.data.drop (r.pos + 4)).take 4 = compressedMovieAtomType then
        (.error .compressedVideo, ReadSeeker.mk r.data (r.pos + 8))
      else if (r.data.drop (r.pos + 4)).take 4 = referenceMovieAtomType then
        (.error .referenceVideo, ReadSeeker.mk r.data (r.pos + 8))
      else (.error .didNotFindMovieHeader, ReadSeeker.mk r.data (r.pos + 8)) := by
  unfold afterMoov
  rw [Read_full r buf hb h]
  simp only [take_drop_header]

theorem afterMoov_mvhd (r : ReadSeeker) (buf : List Byte) (hb : buf.length = 8)
    (h : r.pos + 16 ≤ r.data.length)
    (ht : (r.data.drop (r.pos + 4)).take 4 = movieHeaderAtomType) :
    afterMoov r buf = (.ok ((Uint32 (r.data.drop (r.pos + 12)) : Int) - 2082844800),
      ReadSeeker.mk r.data (r.pos + 16)) := by
  rw [afterMoov_child r buf hb (by omega), if_pos ht]
  rw [Read_full (ReadSeeker.mk r.data (r.pos + 8)) _ (by simp; omega) (by simp only; omega)]
  simp only [Uint32_payload, creationTime_exact]

theorem getVideoCreationTimeMetadata_of_break (fuel : Nat) (r0 r : ReadSeeker) (buf : List Byte)
    (h : scanLoop fuel r0 (List.replicate 8 0) = some (.ok buf, r)) :
    getVideoCreationTimeMetadata fuel r0 = some (afterMoov r buf) := by
  unfold getVideoCreationTimeMetadata
  rw [h]

theorem Uint32_of_take (l : List Byte) (T : Nat) (hT : T < 4294967296)
    (h : l.take 4 = be32 T) : Uint32 l = T := by
  rw [← Uint32_take l 4 (by omega), h]
  have := Uint32_be32_append T hT []
  rwa [List.append_nil] at this

/-- On the 4-byte stream `0 0 0 4` every iteration reads the four bytes at
offset 0 into the front of the buffer and seeks back from offset 4 to 0. -/
theorem scanLoop_four_bytes (fuel : Nat) : ∀ (buf : List Byte), buf.length = 8 →
    buf.drop 4 = [0, 0, 0, 0] →
    scanLoop fuel (ReadSeeker.mk [0, 0, 0, 4] 0) buf = none := by
  induction fuel with
  | zero => intro buf _ _; rfl
  | succ n ih =>
    intro buf hb hd
    have hr : (ReadSeeker.mk [0, 0, 0, 4] 0).Read buf
        = .ok (4, [0, 0, 0, 4, 0, 0, 0, 0], ReadSeeker.mk [0, 0, 0, 4] 4) := by
      rw [Read_ok _ buf hb (by decide)]
      simp [hd]
    have ht : (([0, 0, 0, 4, 0, 0, 0, 0] : List Byte).drop 4).take 4
        ≠ movieResourceAtomType := by decide
    have hs : (ReadSeeker.mk [0, 0, 0, 4] 4).Seek
        (int64 (int64 (Uint32 [0, 0, 0, 4, 0, 0, 0, 0] : Int) - 8))
        = ReadSeeker.mk [0, 0, 0, 4] 0 := by decide
    rw [scanLoop_step n _ _ buf _ _ hr ht, hs]
    exact ih _ rfl rfl

/-! ## What the loop has read when it leaves -/

theorem Seek_mk (d : List Byte) (p : Nat) (off : Int) :
    (ReadSeeker.mk d p).Seek off
      = ReadSeeker.mk d (if 0 ≤ (p : Int) + off then ((p : Int) + off).toNat else p) := by
  unfold ReadSeeker.Seek
  split_ifs <;> rfl

theorem take_drop_congr (d1 d2 : List Byte) (n q k : Nat) (h : d1.take n = d2.take n)
    (hk : q + k ≤ n) : (d1.drop q).take k = (d2.drop q).take k := by
  have key : ∀ d : List Byte, (d.drop q).take k = ((d.take n).drop q).take k := by
    intro d
    rw [List.drop_take, List.take_take]
    congr 1
    omega
  rw [key d1, key d2, h]

/-- When the loop leaves through `break`, the buffer is tagged "moov"; and when
the offset it leaves at is before the end of the stream, the buffer is the
8-byte header stored right before that offset. -/
theorem scanLoop_break_header (fuel : Nat) : ∀ (r0 r : ReadSeeker) (buf0 buf : List Byte),
    buf0.length = 8 → scanLoop fuel r0 buf0 = some (.ok buf, r) →
    (buf.drop 4).take 4 = movieResourceAtomType
    ∧ (r.pos < r0.data.length → 8 ≤ r.pos ∧ (r0.data.drop (r.pos - 8)).take 8 = buf) := by
  induction fuel with
  | zero => intro r0 r buf0 buf _ h; simp [scanLoop] at h
  | succ n ih =>
    intro r0 r buf0 buf hb h
    rw [scanLoop] at h
    cases hr : r0.Read buf0 with
    | error e => simp only [hr, Option.some.injEq, Prod.mk.injEq] at h; cases h.1
    | ok v =>
      obtain ⟨n1, buf1, r1⟩ := v
      obtain ⟨hl, hd, hp, hpos, hbuf1⟩ := Read_length r0 r1 buf0 buf1 n1 hb hr
      simp only [hr] at h
      split_ifs at h with ht
      · simp only [Option.some.injEq, Prod.mk.injEq, Except.ok.injEq] at h
        obtain ⟨h1, h2⟩ := h
        subst h1 h2
        refine ⟨ht, fun hlt => ?_⟩
        have hm : min 8 (r0.data.length - r0.pos) = 8 := by omega
        rw [hm] at hpos hbuf1
        refine ⟨by omega, ?_⟩
        rw [hbuf1, hpos, List.drop_eq_nil_of_le (by omega : buf0.length ≤ 8), List.append_nil]
        congr 2
      · have := ih _ _ _ _ hl h
        rw [Seek_data, hd] at this
        exact this

/-- The offset at which the loop leaves through `break` is at least 8 past the
offset it started at, or at the end of the stream. -/
theorem scanLoop_break_pos_ge (fuel : Nat) : ∀ (r0 r : ReadSeeker) (buf0 buf : List Byte),
    buf0.length = 8 → scanLoop fuel r0 buf0 = some (.ok buf, r) →
    min (r0.pos + 8) r0.data.length ≤ r.pos := by
  induction fuel with
  | zero => intro r0 r buf0 buf _ h; simp [scanLoop] at h
  | succ n ih =>
    intro r0 r buf0 buf hb h
    rw [scanLoop] at h
    cases hr : r0.Read buf0 with
    | error e => simp only [hr, Option.some.injEq, Prod.mk.injEq] at h; cases h.1
    | ok v =>
      obtain ⟨n1, buf1, r1⟩ := v
      obtain ⟨hl, hd, hp, hpos, -⟩ := Read_length r0 r1 buf0 buf1 n1 hb hr
      simp only [hr] at h
      split_ifs at h with ht
      · simp only [Option.some.injEq, Prod.mk.injEq, Except.ok.injEq] at h
        obtain ⟨-, h2⟩ := h
        subst h2
        omega
      · have h3 := ih _ _ _ _ hl h
        rw [Seek_data, hd, Seek_size r1 _ (Uint32_lt buf1)] at h3
        split_ifs at h3 <;> omega

/-- The loop reads nothing past the header it leaves at: when it leaves through
`break` at an offset `p` with `p + 8 ≤ n`, it does the same on every stream with
the same first `n` bytes. -/
theorem scanLoop_frame (fuel : Nat) : ∀ (q n : Nat) (d1 d2 buf0 buf : List Byte) (r : ReadSeeker),
    buf0.length = 8 → d1.take n = d2.take n → n ≤ d1.length → n ≤ d2.length →
    scanLoop fuel (ReadSeeker.mk d1 q) buf0 = some (.ok buf, r) → r.pos + 8 ≤ n →
    scanLoop fuel (ReadSeeker.mk d2 q) buf0 = some (.ok buf, ReadSeeker.mk d2 r.pos) := by
  induction fuel with
  | zero => intro q n d1 d2 buf0 buf r _ _ _ _ h; simp [scanLoop] at h
  | succ m ih =>
    intro q n d1 d2 buf0 buf r hb hd h1 h2 h hn
    by_cases hq : q + 8 ≤ n
    · have hr1 := Read_full (ReadSeeker.mk d1 q) buf0 hb (by simp only; omega)
      have hr2 := Read_full (ReadSeeker.mk d2 q) buf0 hb (by simp only; omega)
      simp only at hr1 hr2
      rw [← take_drop_congr d1 d2 n q 8 hd hq] at hr2
      rw [scanLoop, hr1] at h
      rw [scanLoop, hr2]
      simp only at h ⊢
      split_ifs at h ⊢ with ht
      · simp only [Option.some.injEq, Prod.mk.injEq, Except.ok.injEq] at h
        obtain ⟨h3, h4⟩ := h
        subst h3 h4
        rfl
      · rw [Seek_mk] at h ⊢
        exact ih _ n d1 d2 _ buf r (by simp; omega) hd h1 h2 h hn
    · have := scanLoop_break_pos_ge (m + 1) _ _ _ _ hb h
      simp only at this
      omega

/-! ## The claims -/

/-- C1: on a stream made of any number of well-formed leading atoms not tagged
"moov", an 8-byte "moov" header, an 8-byte "mvhd" child header and at least 8
further bytes whose bytes 5-8 hold `T` big-endian, the scan from offset 0
returns (with any fuel above the number of leading atoms) the instant with Unix
seconds `T - 2082844800`, and stops 24 bytes past the start of the "moov"
header. -/
theorem creation_time_of_wellformed_stream (atoms : List (List Byte × List Byte))
    (hatoms : ∀ a ∈ atoms, LeadingAtom a)
    (moovSize childSize versionFlags rest : List Byte) (hm : moovSize.length = 4)
    (hc : childSize.length = 4) (hv : versionFlags.length = 4)
    (T : Nat) (hT : T < 4294967296) (fuel : Nat) (hfuel : atoms.length < fuel) :
    getVideoCreationTimeMetadata fuel
        (openAt0 (encodeAtoms atoms ++ (moovSize ++ movieResourceAtomType)
          ++ ((childSize ++ movieHeaderAtomType) ++ (versionFlags ++ be32 T) ++ rest)))
      = some (.ok ((T : Int) - 2082844800),
          ReadSeeker.mk (encodeAtoms atoms ++ (moovSize ++ movieResourceAtomType)
            ++ ((childSize ++ movieHeaderAtomType) ++ (versionFlags ++ be32 T) ++ rest))
            ((encodeAtoms atoms).length + 24)) := by
  have hmoov : (moovSize ++ movieResourceAtomType).length = 8 := by
    simp [hm, movieResourceAtomType]
  have hloop := scanLoop_leading atoms [] (List.replicate 8 0) (moovSize ++ movieResourceAtomType)
    ((childSize ++ movieHeaderAtomType) ++ (versionFlags ++ be32 T) ++ rest) fuel hatoms
    (by simp) hmoov
    (by rw [List.drop_left' hm]; rfl) hfuel
  simp only [List.nil_append, List.length_nil, Nat.zero_add] at hloop
  unfold getVideoCreationTimeMetadata openAt0
  rw [hloop]
  simp only
  have hd1 : encodeAtoms atoms ++ (moovSize ++ movieResourceAtomType)
        ++ ((childSize ++ movieHeaderAtomType) ++ (versionFlags ++ be32 T) ++ rest)
      = (encodeAtoms atoms ++ (moovSize ++ movieResourceAtomType) ++ childSize)
        ++ (movieHeaderAtomType ++ ((versionFlags ++ be32 T) ++ rest)) := by
    simp only [List.append_assoc]
  have hd2 : encodeAtoms atoms ++ (moovSize ++ movieResourceAtomType)
        ++ ((childSize ++ movieHeaderAtomType) ++ (versionFlags ++ be32 T) ++ rest)
      = (encodeAtoms atoms ++ (moovSize ++ movieResourceAtomType) ++ childSize
          ++ movieHeaderAtomType ++ versionFlags) ++ (be32 T ++ rest) := by
    simp only [List.append_assoc]
  have hl1 : (encodeAtoms atoms ++ (moovSize ++ movieResourceAtomType) ++ childSize).length
      = (encodeAtoms atoms).length + 8 + 4 := by
    simp only [List.length_append, hmoov, hc, hm]
  have hl2 : (encodeAtoms atoms ++ (moovSize ++ movieResourceAtomType) ++ childSize
          ++ movieHeaderAtomType ++ versionFlags).length = (encodeAtoms atoms).length + 8 + 12 := by
    simp only [List.length_append, hmoov, hc, hm, hv, movieHeaderAtomType, List.length_cons,
      List.length_nil]
  rw [afterMoov_mvhd _ _ hmoov]
  · simp only
    congr 3
    · conv_lhs => rw [hd2, List.drop_left' hl2]
      rw [Uint32_be32_append T hT]
  · simp only [List.length_append, hmoov, hc, hv, be32_length, movieHeaderAtomType,
      List.length_cons, List.length_nil]
    omega
  · simp only
    conv_lhs => rw [hd1, List.drop_left' hl1]
    rfl

/-- C1, at the stream of the spec's scenario: a "free" atom of size 16 with 8
padding bytes, a "moov" header, an "mvhd" header, then 8 bytes holding
`3000000000`: the result is `917155200`. -/
theorem creation_time_of_wellformed_stream_witness :
    (∀ a ∈ [(([102, 114, 101, 101] : List Byte), (List.replicate 8 0 : List Byte))],
        LeadingAtom a)
    ∧ getVideoCreationTimeMetadata 2
        (openAt0 [0, 0, 0, 16, 102, 114, 101, 101, 0, 0, 0, 0, 0, 0, 0, 0,
          0, 0, 0, 108, 109, 111, 111, 118, 0, 0, 0, 100, 109, 118, 104, 100,
          0, 0, 0, 0, 178, 208, 94, 0])
      = some (.ok 917155200,
          ReadSeeker.mk [0, 0, 0, 16, 102, 114, 101, 101, 0, 0, 0, 0, 0, 0, 0, 0,
            0, 0, 0, 108, 109, 111, 111, 118, 0, 0, 0, 100, 109, 118, 104, 100,
            0, 0, 0, 0, 178, 208, 94, 0] 40) :=
  ⟨by decide,
   creation_time_of_wellformed_stream [([102, 114, 101, 101], List.replicate 8 0)] (by decide)
     [0, 0, 0, 108] [0, 0, 0, 100] [0, 0, 0, 0] [] rfl rfl rfl 3000000000 (by decide) 2
     (by decide)⟩

/-- C2 (amended): when every header the loop looks at in its first
`length / 8 + 2` iterations is not tagged "moov" and declares a size of at
least 8, the scan from offset 0 ends with `io.EOF` (the spec's `Truncated`)
at an offset at or past the end of the stream, for every fuel from
`length / 8 + 2` on. -/
theorem scan_without_moov_ends_in_EOF (data : List Byte)
    (h : ∀ b ∈ inspectedHeaders (data.length / 8 + 2) (openAt0 data) (List.replicate 8 0),
      (b.drop 4).take 4 ≠ movieResourceAtomType ∧ 8 ≤ Uint32 b) :
    ∃ q, data.length ≤ q ∧ ∀ fuel, data.length / 8 + 2 ≤ fuel →
      getVideoCreationTimeMetadata fuel (openAt0 data)
        = some (.error .EOF, ReadSeeker.mk data q) := by
  obtain ⟨q, hq, hres⟩ := scanLoop_EOF_of_sizes (data.length / 8 + 2) (openAt0 data)
    (List.replicate 8 0) (by simp) (by simp only [openAt0]; omega) h
  refine ⟨q, hq, fun fuel hfuel => ?_⟩
  obtain ⟨k, rfl⟩ : ∃ k, fuel = data.length / 8 + 2 + k := ⟨fuel - (data.length / 8 + 2), by omega⟩
  unfold getVideoCreationTimeMetadata
  rw [scanLoop_mono _ k _ _ _ hres]
  rfl

/-- C2 (amended), at a stream of a "free" atom of size 16, an "mdat" atom of
size 12 and three trailing zero bytes. -/
theorem scan_without_moov_ends_in_EOF_witness :
    (∀ b ∈ inspectedHeaders (([0, 0, 0, 16, 102, 114, 101, 101, 0, 0, 0, 0, 0, 0, 0, 0,
          0, 0, 0, 12, 109, 100, 97, 116, 1, 2, 3, 4, 0, 0, 0] : List Byte).length / 8 + 2)
        (openAt0 [0, 0, 0, 16, 102, 114, 101, 101, 0, 0, 0, 0, 0, 0, 0, 0,
          0, 0, 0, 12, 109, 100, 97, 116, 1, 2, 3, 4, 0, 0, 0]) (List.replicate 8 0),
      (b.drop 4).take 4 ≠ movieResourceAtomType ∧ 8 ≤ Uint32 b)
    ∧ ∃ q, ([0, 0, 0, 16, 102, 114, 101, 101, 0, 0, 0, 0, 0, 0, 0, 0,
          0, 0, 0, 12, 109, 100, 97, 116, 1, 2, 3, 4, 0, 0, 0] : List Byte).length ≤ q
      ∧ ∀ fuel, ([0, 0, 0, 16, 102, 114, 101, 101, 0, 0, 0, 0, 0, 0, 0, 0,
          0, 0, 0, 12, 109, 100, 97, 116, 1, 2, 3, 4, 0, 0, 0] : List Byte).length / 8 + 2 ≤ fuel →
        getVideoCreationTimeMetadata fuel
          (openAt0 [0, 0, 0, 16, 102, 114, 101, 101, 0, 0, 0, 0, 0, 0, 0, 0,
            0, 0, 0, 12, 109, 100, 97, 116, 1, 2, 3, 4, 0, 0, 0])
          = some (.error .EOF, ReadSeeker.mk [0, 0, 0, 16, 102, 114, 101, 101, 0, 0, 0, 0, 0, 0, 0, 0,
            0, 0, 0, 12, 109, 100, 97, 116, 1, 2, 3, 4, 0, 0, 0] q) :=
  ⟨by decide, scan_without_moov_ends_in_EOF _ (by decide)⟩

/-- C2 as stated fails: on the 8-byte stream holding one header of size 0
tagged "free", the loop never meets a header tagged "moov" and never ends,
whatever the fuel. -/
theorem scan_size_zero_never_ends :
    (¬ ∃ fuel b, b ∈ inspectedHeaders fuel (openAt0 [0, 0, 0, 0, 102, 114, 101, 101])
        (List.replicate 8 0) ∧ (b.drop 4).take 4 = movieResourceAtomType)
    ∧ ¬ ∃ fuel res, getVideoCreationTimeMetadata fuel (openAt0 [0, 0, 0, 0, 102, 114, 101, 101])
        = some res := by
  constructor
  · rintro ⟨fuel, b, hb, ht⟩
    have h := (scanLoop_size_zero fuel (List.replicate 8 0) (by simp)).2 b hb
    subst h
    revert ht
    decide
  · rintro ⟨fuel, res, h⟩
    have h1 := (scanLoop_size_zero fuel (List.replicate 8 0) (by simp)).1
    unfold getVideoCreationTimeMetadata openAt0 at h
    rw [h1] at h
    cases h

/-- C3 (the code at a failing input): a "moov" header, an "mvhd" child header
and only four further bytes. The third `Read` returns 4 bytes and no error,
the buffer keeps the tag bytes "mvhd" of the child header in its places 5-8,
and the function returns them as a creation time, `1836476516 - 2082844800`
Unix seconds, with no error. -/
theorem short_mvhd_payload_returns_time :
    getVideoCreationTimeMetadata 1
        (openAt0 [0, 0, 0, 24, 109, 111, 111, 118, 0, 0, 0, 16, 109, 118, 104, 100, 0, 0, 0, 0])
      = some (.ok (-246368284),
          ReadSeeker.mk
            [0, 0, 0, 24, 109, 111, 111, 118, 0, 0, 0, 16, 109, 118, 104, 100, 0, 0, 0, 0] 20) := by
  decide

/-- C4 (the code at two failing inputs): a "moov" header followed by the seven
bytes `0 0 0 0 c m o` gives the error "Compressed video" (the buffer keeps the
`v` of "moov" in its last place), and a "moov" header followed by one byte gives
the error "Did not find movie header atom (mvhd)" (the buffer keeps the whole tag
"moov"); neither gives `io.EOF`. -/
theorem short_child_header_not_EOF :
    getVideoCreationTimeMetadata 1
        (openAt0 [0, 0, 0, 24, 109, 111, 111, 118, 0, 0, 0, 0, 99, 109, 111])
      = some (.error .compressedVideo,
          ReadSeeker.mk [0, 0, 0, 24, 109, 111, 111, 118, 0, 0, 0, 0, 99, 109, 111] 15)
    ∧ getVideoCreationTimeMetadata 1 (openAt0 [0, 0, 0, 24, 109, 111, 111, 118, 0])
      = some (.error .didNotFindMovieHeader,
          ReadSeeker.mk [0, 0, 0, 24, 109, 111, 111, 118, 0] 9) := by
  decide

/-- C5 (the code at a failing input): on the 4-byte stream `0 0 0 4` the
function never returns: the first `Read` returns 4 bytes and no error, the size
read is 4, the seek by `4 - 8` leads back to offset 0, and so on for ever. -/
theorem four_byte_stream_never_returns :
    ¬ ∃ fuel res, getVideoCreationTimeMetadata fuel (openAt0 [0, 0, 0, 4]) = some res := by
  rintro ⟨fuel, res, h⟩
  have h1 := scanLoop_four_bytes fuel (List.replicate 8 0) (by simp) (by decide)
  unfold getVideoCreationTimeMetadata openAt0 at h
  rw [h1] at h
  cases h

/-- C6: when the loop has left at a "moov" header that is followed by a whole
"mvhd" child header and by 8 bytes whose bytes 5-8 hold the 32-bit number `T`
big-endian, the function returns, with no error, the instant with Unix seconds
exactly `T - 2082844800`; that number lies between `-2082844800` and
`2212122495` and is negative exactly when `T < 2082844800`. -/
theorem unix_seconds_exact (data : List Byte) (fuel : Nat) (buf : List Byte) (r : ReadSeeker)
    (T : Nat) (hT : T < 4294967296)
    (hloop : scanLoop fuel (openAt0 data) (List.replicate 8 0) = some (.ok buf, r))
    (hlen : r.pos + 16 ≤ data.length)
    (htag : (data.drop (r.pos + 4)).take 4 = movieHeaderAtomType)
    (hpay : (data.drop (r.pos + 12)).take 4 = be32 T) :
    ∃ t : Int, getVideoCreationTimeMetadata fuel (openAt0 data)
        = some (.ok t, ReadSeeker.mk data (r.pos + 16))
      ∧ t = (T : Int) - 2082844800 ∧ -2082844800 ≤ t ∧ t ≤ 2212122495
      ∧ (t < 0 ↔ T < 2082844800) := by
  obtain ⟨hdata, hbuf⟩ := scanLoop_inv fuel _ _ _ _ (by simp) hloop
  have hdata2 : r.data = data := hdata
  refine ⟨(T : Int) - 2082844800, ?_, rfl, by omega, by omega, by omega⟩
  rw [getVideoCreationTimeMetadata_of_break fuel _ _ _ hloop,
    afterMoov_mvhd r buf (hbuf buf rfl) (by rw [hdata2]; exact hlen) (by rw [hdata2]; exact htag),
    hdata2, Uint32_of_take _ T hT hpay]

/-- C6, at `T = 0`: a "moov" header, an "mvhd" header and an all-zero payload give
`-2082844800`. -/
theorem unix_seconds_exact_witness :
    ∃ t : Int, getVideoCreationTimeMetadata 1
        (openAt0 [0, 0, 0, 108, 109, 111, 111, 118, 0, 0, 0, 100, 109, 118, 104, 100,
          0, 0, 0, 0, 0, 0, 0, 0])
        = some (.ok t, ReadSeeker.mk [0, 0, 0, 108, 109, 111, 111, 118, 0, 0, 0, 100,
            109, 118, 104, 100, 0, 0, 0, 0, 0, 0, 0, 0] (8 + 16))
      ∧ t = ((0 : Nat) : Int) - 2082844800 ∧ -2082844800 ≤ t ∧ t ≤ 2212122495
      ∧ (t < 0 ↔ 0 < 2082844800) :=
  unix_seconds_exact [0, 0, 0, 108, 109, 111, 111, 118, 0, 0, 0, 100, 109, 118, 104, 100,
      0, 0, 0, 0, 0, 0, 0, 0] 1 [0, 0, 0, 108, 109, 111, 111, 118]
    (ReadSeeker.mk [0, 0, 0, 108, 109, 111, 111, 118, 0, 0, 0, 100, 109, 118, 104, 100,
      0, 0, 0, 0, 0, 0, 0, 0] 8) 0 (by decide) (by decide) (by decide) (by decide) (by decide)

/-- C7: when the loop has left at a "moov" header that is followed by a whole
8-byte child header tagged "cmov", the function returns the error "Compressed
video", whatever the size field of the child and whatever follows it, and
stops at the end of the child header. -/
theorem cmov_child_gives_compressed (data : List Byte) (fuel : Nat) (buf : List Byte)
    (r : ReadSeeker)
    (hloop : scanLoop fuel (openAt0 data) (List.replicate 8 0) = some (.ok buf, r))
    (hlen : r.pos + 8 ≤ data.length)
    (htag : (data.drop (r.pos + 4)).take 4 = compressedMovieAtomType) :
    getVideoCreationTimeMetadata fuel (openAt0 data)
      = some (.error .compressedVideo, ReadSeeker.mk data (r.pos + 8)) := by
  obtain ⟨hdata, hbuf⟩ := scanLoop_inv fuel _ _ _ _ (by simp) hloop
  have hdata2 : r.data = data := hdata
  rw [getVideoCreationTimeMetadata_of_break fuel _ _ _ hloop,
    afterMoov_child r buf (hbuf buf rfl) (by rw [hdata2]; exact hlen), hdata2,
    if_neg (by rw [htag]; decide), if_pos htag]

/-- C7, at a "free" atom followed by a "moov" header and a "cmov" child header
with nothing after it. -/
theorem cmov_child_gives_compressed_witness :
    getVideoCreationTimeMetadata 2
        (openAt0 [0, 0, 0, 8, 102, 114, 101, 101, 0, 0, 0, 108, 109, 111, 111, 118,
          255, 255, 255, 255, 99, 109, 111, 118])
      = some (.error .compressedVideo,
          ReadSeeker.mk [0, 0, 0, 8, 102, 114, 101, 101, 0, 0, 0, 108, 109, 111, 111, 118,
            255, 255, 255, 255, 99, 109, 111, 118] (16 + 8)) :=
  cmov_child_gives_compressed [0, 0, 0, 8, 102, 114, 101, 101, 0, 0, 0, 108, 109, 111, 111, 118,
      255, 255, 255, 255, 99, 109, 111, 118] 2 [0, 0, 0, 108, 109, 111, 111, 118]
    (ReadSeeker.mk [0, 0, 0, 8, 102, 114, 101, 101, 0, 0, 0, 108, 109, 111, 111, 118,
      255, 255, 255, 255, 99, 109, 111, 118] 16) (by decide) (by decide) (by decide)

/-- C8: when the loop has left at a "moov" header that is followed by a whole
8-byte child header tagged "rmra", the function returns the error "Reference
video" and stops at the end of the child header, 16 bytes past the offset `m`
at which the "moov" header starts; and it returns the same, at the same offset,
on every stream with the same first `m + 16` bytes, so that no byte after the
child header is read. -/
theorem rmra_child_gives_reference (data : List Byte) (fuel : Nat) (buf : List Byte)
    (r : ReadSeeker)
    (hloop : scanLoop fuel (openAt0 data) (List.replicate 8 0) = some (.ok buf, r))
    (hlen : r.pos + 8 ≤ data.length)
    (htag : (data.drop (r.pos + 4)).take 4 = referenceMovieAtomType) :
    ∃ m, r.pos = m + 8 ∧ (data.drop (m + 4)).take 4 = movieResourceAtomType
      ∧ getVideoCreationTimeMetadata fuel (openAt0 data)
          = some (.error .referenceVideo, ReadSeeker.mk data (m + 16))
      ∧ ∀ data2 : List Byte, data2.take (m + 16) = data.take (m + 16) →
          getVideoCreationTimeMetadata fuel (openAt0 data2)
            = some (.error .referenceVideo, ReadSeeker.mk data2 (m + 16)) := by
  obtain ⟨hdata, hbuf⟩ := scanLoop_inv fuel _ _ _ _ (by simp) hloop
  have hdata2 : r.data = data := hdata
  obtain ⟨hmoov, hhdr⟩ := scanLoop_break_header fuel _ _ _ _ (by simp) hloop
  obtain ⟨h8, hhdr2⟩ := hhdr (by simp only [openAt0]; omega)
  simp only [openAt0] at hhdr2
  have hpos : r.pos = r.pos - 8 + 8 := by omega
  have hpos16 : r.pos - 8 + 16 = r.pos + 8 := by omega
  have hne1 : referenceMovieAtomType ≠ movieHeaderAtomType := by decide
  have hne2 : referenceMovieAtomType ≠ compressedMovieAtomType := by decide
  refine ⟨r.pos - 8, hpos, ?_, ?_, ?_⟩
  · rw [← take_drop_header, hhdr2, hmoov]
  · rw [getVideoCreationTimeMetadata_of_break fuel _ _ _ hloop,
      afterMoov_child r buf (hbuf buf rfl) (by rw [hdata2]; exact hlen), hdata2, htag,
      if_neg hne1, if_neg hne2, if_pos rfl, hpos16]
  · intro data2 h2
    rw [hpos16] at h2 ⊢
    have hl2 : r.pos + 8 ≤ data2.length := by
      have := congrArg List.length h2
      simp only [List.length_take] at this
      omega
    have hloop2 := scanLoop_frame fuel 0 (r.pos + 8) data data2 _ buf r (by simp) h2.symm hlen hl2
      hloop (le_refl _)
    have htag2 : (data2.drop (r.pos + 4)).take 4 = referenceMovieAtomType := by
      rw [take_drop_congr data2 data (r.pos + 8) (r.pos + 4) 4 h2 (by omega)]
      exact htag
    have hloop3 : scanLoop fuel (openAt0 data2) (List.replicate 8 0)
        = some (.ok buf, ReadSeeker.mk data2 r.pos) := hloop2
    rw [getVideoCreationTimeMetadata_of_break fuel _ _ _ hloop3,
      afterMoov_child _ buf (hbuf buf rfl) (by simp only; exact hl2)]
    simp only [htag2, if_neg hne1, if_neg hne2, if_true]

/-- C8, at a "moov" header followed by an "rmra" child header and three more
bytes: the function stops at offset 16. -/
theorem rmra_child_gives_reference_witness :
    ∃ m, 8 = m + 8
      ∧ (([0, 0, 0, 108, 109, 111, 111, 118, 0, 0, 0, 100, 114, 109, 114, 97, 1, 2, 3] :
          List Byte).drop (m + 4)).take 4 = movieResourceAtomType
      ∧ getVideoCreationTimeMetadata 1
          (openAt0 [0, 0, 0, 108, 109, 111, 111, 118, 0, 0, 0, 100, 114, 109, 114, 97, 1, 2, 3])
          = some (.error .referenceVideo,
              ReadSeeker.mk [0, 0, 0, 108, 109, 111, 111, 118, 0, 0, 0, 100, 114, 109, 114, 97,
                1, 2, 3] (m + 16))
      ∧ ∀ data2 : List Byte, data2.take (m + 16)
            = ([0, 0, 0, 108, 109, 111, 111, 118, 0, 0, 0, 100, 114, 109, 114, 97, 1, 2, 3] :
                List Byte).take (m + 16) →
          getVideoCreationTimeMetadata 1 (openAt0 data2)
            = some (.error .referenceVideo, ReadSeeker.mk data2 (m + 16)) :=
  rmra_child_gives_reference
    [0, 0, 0, 108, 109, 111, 111, 118, 0, 0, 0, 100, 114, 109, 114, 97, 1, 2, 3] 1
    [0, 0, 0, 108, 109, 111, 111, 118]
    (ReadSeeker.mk [0, 0, 0, 108, 109, 111, 111, 118, 0, 0, 0, 100, 114, 109, 114, 97, 1, 2, 3] 8)
    (by decide) (by decide) (by decide)

/-- C9: when the loop has left at a "moov" header that is followed by a whole
8-byte child header whose tag is none of "mvhd", "cmov", "rmra", the function
returns the error "Did not find movie header atom (mvhd)", whatever follows
that first child, and stops at the end of its header. -/
theorem other_child_gives_header_not_found (data : List Byte) (fuel : Nat) (buf : List Byte)
    (r : ReadSeeker)
    (hloop : scanLoop fuel (openAt0 data) (List.replicate 8 0) = some (.ok buf, r))
    (hlen : r.pos + 8 ≤ data.length)
    (h1 : (data.drop (r.pos + 4)).take 4 ≠ movieHeaderAtomType)
    (h2 : (data.drop (r.pos + 4)).take 4 ≠ compressedMovieAtomType)
    (h3 : (data.drop (r.pos + 4)).take 4 ≠ referenceMovieAtomType) :
    getVideoCreationTimeMetadata fuel (openAt0 data)
      = some (.error .didNotFindMovieHeader, ReadSeeker.mk data (r.pos + 8)) := by
  obtain ⟨hdata, hbuf⟩ := scanLoop_inv fuel _ _ _ _ (by simp) hloop
  have hdata2 : r.data = data := hdata
  rw [getVideoCreationTimeMetadata_of_break fuel _ _ _ hloop,
    afterMoov_child r buf (hbuf buf rfl) (by rw [hdata2]; exact hlen), hdata2,
    if_neg h1, if_neg h2, if_neg h3]

/-- C9, at a "moov" whose first child is an empty "udta" atom and whose second
child is an "mvhd" atom: the second child is not looked at. -/
theorem other_child_gives_header_not_found_witness :
    getVideoCreationTimeMetadata 1
        (openAt0 [0, 0, 0, 32, 109, 111, 111, 118, 0, 0, 0, 8, 117, 100, 116, 97,
          0, 0, 0, 16, 109, 118, 104, 100, 0, 0, 0, 0, 178, 208, 94, 0])
      = some (.error .didNotFindMovieHeader,
          ReadSeeker.mk [0, 0, 0, 32, 109, 111, 111, 118, 0, 0, 0, 8, 117, 100, 116, 97,
            0, 0, 0, 16, 109, 118, 104, 100, 0, 0, 0, 0, 178, 208, 94, 0] (8 + 8)) :=
  other_child_gives_header_not_found [0, 0, 0, 32, 109, 111, 111, 118, 0, 0, 0, 8, 117, 100, 116, 97,
      0, 0, 0, 16, 109, 118, 104, 100, 0, 0, 0, 0, 178, 208, 94, 0] 1
    [0, 0, 0, 32, 109, 111, 111, 118]
    (ReadSeeker.mk [0, 0, 0, 32, 109, 111, 111, 118, 0, 0, 0, 8, 117, 100, 116, 97,
      0, 0, 0, 16, 109, 118, 104, 100, 0, 0, 0, 0, 178, 208, 94, 0] 8)
    (by decide) (by decide) (by decide) (by decide) (by decide)

/-- C10: the constant `appleEpochAdjustment`, 2082844800, is 86400 times the
number of days from 1 January 1904 to 1 January 1970 in the proleptic Gregorian
calendar; these 66 years hold 17 leap years and 24107 days. -/
theorem appleEpochAdjustment_eq_seconds_1904_to_1970 :
    appleEpochAdjustment = 86400 * (daysBetweenNewYears 1904 1970 : Int)
    ∧ appleEpochAdjustment = 2082844800
    ∧ daysBetweenNewYears 1904 1970 = 24107
    ∧ leapYearsBetween 1904 1970 = 17
    ∧ 1970 - 1904 = 66
    ∧ daysBetweenNewYears 1904 1970 = 365 * 66 + leapYearsBetween 1904 1970 := by
  decide

/-! ## The per-file step of `main`: names -/

/-- The pieces `strings.Split` returns end with a piece free of the separator:
the whole text when there is only one piece, and otherwise what follows the last
separator. -/
theorem Split_last (sep : Byte) : ∀ s : List Byte, ∃ (init : List (List Byte)) (token : List Byte),
    Split s sep = init ++ [token] ∧ sep ∉ token
      ∧ (init = [] → s = token) ∧ (init ≠ [] → ∃ pre, s = pre ++ sep :: token) := by
  intro s
  induction s with
  | nil => exact ⟨[], [], rfl, by simp, fun _ => rfl, fun h => absurd rfl h⟩
  | cons c rest ih =>
    obtain ⟨init, token, hsplit, hsep, h1, h2⟩ := ih
    by_cases hc : c = sep
    · refine ⟨[] :: init, token, ?_, hsep, fun h => absurd h (List.cons_ne_nil _ _), fun _ => ?_⟩
      · simp only [Split, if_pos hc, hsplit, List.cons_append]
      · by_cases hi : init = []
        · exact ⟨[], by rw [h1 hi, hc]; rfl⟩
        · obtain ⟨pre, hpre⟩ := h2 hi
          exact ⟨c :: pre, by rw [hpre]; rfl⟩
    · cases init with
      | nil =>
        refine ⟨[], c :: token, ?_, ?_, fun _ => by rw [h1 rfl], fun h => absurd rfl h⟩
        · simp only [Split, if_neg hc, hsplit, List.nil_append]
        · intro hmem
          rcases List.mem_cons.mp hmem with h | h
          · exact hc h.symm
          · exact hsep h
      | cons piece pieces =>
        obtain ⟨pre, hpre⟩ := h2 (by simp)
        refine ⟨(c :: piece) :: pieces, token, ?_, hsep,
          fun h => absurd h (List.cons_ne_nil _ _), fun _ => ?_⟩
        · simp only [Split, if_neg hc, hsplit, List.cons_append]
        · exact ⟨c :: pre, by rw [hpre]; rfl⟩

/-- C11 (the code at a failing input): `main` over two files, the first one
empty, so that its scan fails with `io.EOF`. The deferred function of the
per-file step runs all the same: the file is closed and `os.Rename` is called,
with the empty string for both names; then `main` goes on to the second file. -/
theorem rename_called_after_failed_scan (Format : Time → List Byte) :
    mainLoop Format 1
        [(ascii "/v/a.mov", ascii "a.mov", []),
         (ascii "/v/b_7.mov", ascii "b_7.mov",
           [0, 0, 0, 108, 109, 111, 111, 118, 0, 0, 0, 100, 109, 118, 104, 100,
            0, 0, 0, 0, 178, 208, 94, 0])]
      = some [.printError .EOF, .close, .rename [] [], .printRenameResult,
          .printMovie (ascii "/v/b_7.mov") 917155200
            (ascii "VID_" ++ Format 917155200 ++ ascii "_" ++ ascii "7.mov"),
          .close,
          .rename (ascii "/v/b_7.mov")
            (ascii "/v/" ++ (ascii "VID_" ++ Format 917155200 ++ ascii "_" ++ ascii "7.mov")),
          .printRenameResult] := by
  have h : mainLoop Format 1
        [(ascii "/v/a.mov", ascii "a.mov", []),
         (ascii "/v/b_7.mov", ascii "b_7.mov",
           [0, 0, 0, 108, 109, 111, 111, 118, 0, 0, 0, 100, 109, 118, 104, 100,
            0, 0, 0, 0, 178, 208, 94, 0])]
      = some [.printError .EOF, .close, .rename [] [], .printRenameResult,
          .printMovie (ascii "/v/b_7.mov") 917155200
            (ascii "VID_" ++ Format 917155200 ++ ascii "_" ++ ascii "7.mov"),
          .close,
          .rename (ascii "/v/b_7.mov")
            (ascii "/v/" ++ ((ascii "VID_" ++ Format 917155200 ++ ascii "_" ++ ascii "7.mov") ++ [])),
          .printRenameResult] := rfl
  rw [List.append_nil] at h
  exact h

/-- C12: the new base name is "VID_", the date `Format created`, "_" and a
token; the token holds no "_" and is the whole original name when that holds no
"_", and otherwise what follows its last "_"; the new name ends with the
token. -/
theorem nextName_structure (Format : Time → List Byte) (created : Time) (filename : List Byte) :
    ∃ token : List Byte,
      nextName Format created filename = ascii "VID_" ++ Format created ++ ascii "_" ++ token
      ∧ (95 : Byte) ∉ token
      ∧ (((95 : Byte) ∉ filename ∧ token = filename) ∨ ∃ pre, filename = pre ++ 95 :: token)
      ∧ token <:+ nextName Format created filename := by
  obtain ⟨init, token, hsplit, hsep, h1, h2⟩ := Split_last 95 filename
  have hname : nextName Format created filename
      = ascii "VID_" ++ Format created ++ ascii "_" ++ token := by
    simp only [nextName, SprintfVID, hsplit, List.getLastD_concat]
  refine ⟨token, hname, hsep, ?_, ?_⟩
  · by_cases hi : init = []
    · left
      have := h1 hi
      exact ⟨by rw [this]; exact hsep, this.symm⟩
    · right
      exact h2 hi
  · rw [hname]
    exact List.suffix_append _ _

/-- C13 (the code at a failing input): a "moov" header at offset 0, an "mvhd"
child header and only four further bytes. The scan succeeds and stops at offset
20, not 24; and with four more bytes added at offset 20, at the position where
the first scan stopped, the scan returns another time. -/
theorem short_payload_scan_reads_to_end :
    getVideoCreationTimeMetadata 1
        (openAt0 [0, 0, 0, 24, 109, 111, 111, 118, 0, 0, 0, 16, 109, 118, 104, 100, 0, 0, 0, 0])
      = some (.ok (-246368284),
          ReadSeeker.mk
            [0, 0, 0, 24, 109, 111, 111, 118, 0, 0, 0, 16, 109, 118, 104, 100, 0, 0, 0, 0] 20)
    ∧ getVideoCreationTimeMetadata 1
        (openAt0 ([0, 0, 0, 24, 109, 111, 111, 118, 0, 0, 0, 16, 109, 118, 104, 100, 0, 0, 0, 0]
          ++ [0, 0, 0, 5]))
      = some (.ok (-2082844795),
          ReadSeeker.mk
            ([0, 0, 0, 24, 109, 111, 111, 118, 0, 0, 0, 16, 109, 118, 104, 100, 0, 0, 0, 0]
              ++ [0, 0, 0, 5]) 24) := by
  decide

/-! ## File discovery: what is listed -/

theorem Reaches_file (windows : Bool) (path name p : List Byte) (n : Node)
    (h : Reaches windows path (.file name) p n) : p = path ∧ n = .file name := by
  cases h
  exact ⟨rfl, rfl⟩

/-- A path reached from `path` is `path` itself or `path`, the separator and
more. -/
theorem Reaches_path (windows : Bool) (path : List Byte) (node : Node) (p : List Byte) (n : Node)
    (h : Reaches windows path node p n) :
    p = path ∨ ∃ t, p = path ++ separatorByte windows :: t := by
  induction h with
  | here path node => exact Or.inl rfl
  | step path name entries e p n _ _ ih =>
    right
    rcases ih with h | ⟨t, h⟩
    · exact ⟨e.name, by rw [h]; simp [separator]⟩
    · exact ⟨e.name ++ separatorByte windows :: t, by rw [h]; simp [separator]⟩

theorem name_cancel (c : Byte) : ∀ (a b t1 t2 : List Byte), c ∉ a → c ∉ b →
    (t1 = [] ∨ ∃ u, t1 = c :: u) → (t2 = [] ∨ ∃ u, t2 = c :: u) →
    a ++ t1 = b ++ t2 → a = b := by
  intro a
  induction a with
  | nil =>
    intro b t1 t2 _ hb h1 _ h
    cases b with
    | nil => rfl
    | cons y b2 =>
      exfalso
      rcases h1 with h1 | ⟨u, h1⟩
      · rw [h1] at h; cases h
      · rw [h1] at h
        simp only [List.nil_append, List.cons_append, List.cons.injEq] at h
        exact hb (by rw [← h.1]; exact List.mem_cons_self _ _)
  | cons x a2 ih =>
    intro b t1 t2 ha hb h1 h2 h
    cases b with
    | nil =>
      exfalso
      rcases h2 with h2 | ⟨u, h2⟩
      · rw [h2] at h; cases h
      · rw [h2] at h
        simp only [List.nil_append, List.cons_append, List.cons.injEq] at h
        exact ha (by rw [h.1]; exact List.mem_cons_self _ _)
    | cons y b2 =>
      simp only [List.cons_append, List.cons.injEq] at h
      rw [h.1, ih b2 t1 t2 (fun hm => ha (List.mem_cons_of_mem _ hm))
        (fun hm => hb (List.mem_cons_of_mem _ hm)) h1 h2 h.2]

/-- Two entries of one directory with different names, neither holding the
separator byte, lead to different paths. -/
theorem Reaches_disjoint (windows : Bool) (path : List Byte) (e1 e2 : Node) (p : List Byte)
    (n1 n2 : Node) (hne : e1.name ≠ e2.name) (h1 : separatorByte windows ∉ e1.name)
    (h2 : separatorByte windows ∉ e2.name)
    (r1 : Reaches windows (path ++ separator windows ++ e1.name) e1 p n1)
    (r2 : Reaches windows (path ++ separator windows ++ e2.name) e2 p n2) : False := by
  have key : ∀ (e : Node) (n : Node),
      Reaches windows (path ++ separator windows ++ e.name) e p n →
      ∃ t, (t = [] ∨ ∃ u, t = separatorByte windows :: u)
        ∧ p = path ++ separator windows ++ (e.name ++ t) := by
    intro e n r
    rcases Reaches_path windows _ e p n r with h | ⟨t, h⟩
    · exact ⟨[], Or.inl rfl, by rw [h]; simp⟩
    · exact ⟨separatorByte windows :: t, Or.inr ⟨t, rfl⟩, by rw [h]; simp⟩
  obtain ⟨t1, ht1, hp1⟩ := key e1 n1 r1
  obtain ⟨t2, ht2, hp2⟩ := key e2 n2 r2
  rw [hp1] at hp2
  exact hne (name_cancel _ _ _ t1 t2 h1 h2 ht1 ht2 (List.append_cancel_left hp2))

mutual
/-- What `ReadFileAbsolutePath` lists when it returns: the paths of the files
reached from the start whose lowercased name ends in ".mov" or ".mp4". -/
theorem mem_ReadFileAbsolutePath (ToLower : List Byte → List Byte) (windows : Bool)
    (path : List Byte) : ∀ (node : Node) (found : List (List Byte)) (p : List Byte),
    ReadFileAbsolutePath ToLower windows path node = .ok found →
    (p ∈ found ↔
      ∃ name, Reaches windows path node p (.file name)
        ∧ (HasSuffix (ToLower name) (ascii ".mov") || HasSuffix (ToLower name) (ascii ".mp4"))
            = true)
  | .file nm, found, p, h => by
    simp only [ReadFileAbsolutePath] at h
    constructor
    · intro hp
      split_ifs at h with hc
      · cases h
        rw [List.mem_singleton] at hp
        subst hp
        exact ⟨nm, Reaches.here _ _, hc⟩
      · cases h
        simp at hp
    · rintro ⟨name, hr, hc⟩
      obtain ⟨hp, hn⟩ := Reaches_file windows path nm p _ hr
      cases hn
      rw [if_pos hc] at h
      cases h
      rw [hp]
      exact List.mem_singleton_self _
  | .dir nm es, found, p, h => by
    simp only [ReadFileAbsolutePath] at h
    rw [mem_readEntries ToLower windows path es found p h]
    constructor
    · rintro ⟨e, he, name, hr, hc⟩
      exact ⟨name, Reaches.step _ _ _ e _ _ he hr, hc⟩
    · rintro ⟨name, hr, hc⟩
      cases hr with
      | step _ _ _ e _ _ he hr2 => exact ⟨e, he, name, hr2, hc⟩
  | .openFails nm, found, p, h => by simp only [ReadFileAbsolutePath] at h; cases h
  | .statFails nm, found, p, h => by simp only [ReadFileAbsolutePath] at h; cases h
  | .readDirFails nm, found, p, h => by simp only [ReadFileAbsolutePath] at h; cases h
/-- What the loop over the entries of a directory lists when it ends without a
panic. -/
theorem mem_readEntries (ToLower : List Byte → List Byte) (windows : Bool)
    (path : List Byte) : ∀ (es : NodeList) (found : List (List Byte)) (p : List Byte),
    readEntries ToLower windows path es = .ok found →
    (p ∈ found ↔
      ∃ e ∈ es.toList, ∃ name,
        Reaches windows (path ++ separator windows ++ e.name) e p (.file name)
        ∧ (HasSuffix (ToLower name) (ascii ".mov") || HasSuffix (ToLower name) (ascii ".mp4"))
            = true)
  | .nil, found, p, h => by
    simp only [readEntries] at h
    cases h
    simp [NodeList.toList]
  | .cons e rest, found, p, h => by
    simp only [readEntries] at h
    cases h1 : ReadFileAbsolutePath ToLower windows (path ++ separator windows ++ e.name) e with
    | error err => rw [h1] at h; cases h
    | ok f1 =>
      cases h2 : readEntries ToLower windows path rest with
      | error err => rw [h1, h2] at h; cases h
      | ok f2 =>
        rw [h1, h2] at h
        cases h
        simp only [List.mem_append, NodeList.toList, List.mem_cons]
        rw [mem_ReadFileAbsolutePath ToLower windows _ e f1 p h1,
          mem_readEntries ToLower windows path rest f2 p h2]
        constructor
        · rintro (⟨name, hr, hc⟩ | ⟨e2, he2, name, hr, hc⟩)
          · exact ⟨e, Or.inl rfl, name, hr, hc⟩
          · exact ⟨e2, Or.inr he2, name, hr, hc⟩
        · rintro ⟨e2, he2 | he2, name, hr, hc⟩
          · subst he2
            exact Or.inl ⟨name, hr, hc⟩
          · exact Or.inr ⟨e2, he2, name, hr, hc⟩
end

mutual
/-- The call returns a list, and does not panic, exactly when every node of the
tree can be opened and read. -/
theorem ReadFileAbsolutePath_ok_iff (ToLower : List Byte → List Byte) (windows : Bool)
    (path : List Byte) : ∀ (node : Node),
    (∃ found, ReadFileAbsolutePath ToLower windows path node = .ok found)
      ↔ node.readable = true
  | .file nm => by
    simp only [ReadFileAbsolutePath, Node.readable, iff_true]
    split_ifs
    · exact ⟨_, rfl⟩
    · exact ⟨_, rfl⟩
  | .dir nm es => by
    simp only [ReadFileAbsolutePath, Node.readable]
    exact readEntries_ok_iff ToLower windows path es
  | .openFails nm => by simp [ReadFileAbsolutePath, Node.readable]
  | .statFails nm => by simp [ReadFileAbsolutePath, Node.readable]
  | .readDirFails nm => by simp [ReadFileAbsolutePath, Node.readable]
/-- The loop over the entries ends without a panic exactly when every node below
them can be opened and read. -/
theorem readEntries_ok_iff (ToLower : List Byte → List Byte) (windows : Bool)
    (path : List Byte) : ∀ (es : NodeList),
    (∃ found, readEntries ToLower windows path es = .ok found) ↔ es.readable = true
  | .nil => by simp [readEntries, NodeList.readable]
  | .cons e rest => by
    have ih1 := ReadFileAbsolutePath_ok_iff ToLower windows
      (path ++ separator windows ++ e.name) e
    have ih2 := readEntries_ok_iff ToLower windows path rest
    simp only [readEntries, NodeList.readable, Bool.and_eq_true]
    rw [← ih1, ← ih2]
    cases h1 : ReadFileAbsolutePath ToLower windows (path ++ separator windows ++ e.name) e with
    | error err => simp
    | ok f1 =>
      cases h2 : readEntries ToLower windows path rest with
      | error err => simp
      | ok f2 => simp
end

theorem wellFormed_names (c : Byte) : ∀ (es : NodeList), es.wellFormed c = true →
    ∀ e ∈ es.toList, c ∉ e.name
  | .nil, _, e, he => by simp [NodeList.toList] at he
  | .cons e1 rest, h, e, he => by
    simp only [NodeList.wellFormed, Bool.and_eq_true, Bool.not_eq_true', List.all_eq_true,
      bne_iff_ne, ne_eq] at h
    obtain ⟨⟨⟨-, hname⟩, -⟩, hwr⟩ := h
    simp only [NodeList.toList, List.mem_cons] at he
    rcases he with he | he
    · subst he
      intro hm
      have : e.name.contains c = true := List.contains_iff_exists_mem_beq.mpr ⟨c, hm, by simp⟩
      rw [hname] at this
      cases this
    · exact wellFormed_names c rest hwr e he

mutual
/-- On a well-formed tree the list `ReadFileAbsolutePath` returns holds no path
twice. -/
theorem nodup_ReadFileAbsolutePath (ToLower : List Byte → List Byte) (windows : Bool)
    (path : List Byte) : ∀ (node : Node) (found : List (List Byte)),
    node.wellFormed (separatorByte windows) = true →
    ReadFileAbsolutePath ToLower windows path node = .ok found → found.Nodup
  | .file nm, found, _, h => by
    simp only [ReadFileAbsolutePath] at h
    split_ifs at h
    · cases h; exact List.nodup_singleton _
    · cases h; exact List.nodup_nil
  | .dir nm es, found, hw, h => by
    simp only [ReadFileAbsolutePath] at h
    exact nodup_readEntries ToLower windows path es found
      (by simpa only [Node.wellFormed] using hw) h
  | .openFails nm, found, _, h => by simp only [ReadFileAbsolutePath] at h; cases h
  | .statFails nm, found, _, h => by simp only [ReadFileAbsolutePath] at h; cases h
  | .readDirFails nm, found, _, h => by simp only [ReadFileAbsolutePath] at h; cases h
/-- On well-formed entries the list the loop over them builds holds no path
twice. -/
theorem nodup_readEntries (ToLower : List Byte → List Byte) (windows : Bool)
    (path : List Byte) : ∀ (es : NodeList) (found : List (List Byte)),
    es.wellFormed (separatorByte windows) = true →
    readEntries ToLower windows path es = .ok found → found.Nodup
  | .nil, found, _, h => by
    simp only [readEntries] at h
    cases h
    exact List.nodup_nil
  | .cons e rest, found, hw, h => by
    have hnames := wellFormed_names _ _ hw
    simp only [NodeList.wellFormed, Bool.and_eq_true, Bool.not_eq_true', List.all_eq_true,
      bne_iff_ne, ne_eq] at hw
    obtain ⟨⟨⟨hwe, -⟩, hall⟩, hwr⟩ := hw
    simp only [readEntries] at h
    cases h1 : ReadFileAbsolutePath ToLower windows (path ++ separator windows ++ e.name) e with
    | error err => rw [h1] at h; cases h
    | ok f1 =>
      cases h2 : readEntries ToLower windows path rest with
      | error err => rw [h1, h2] at h; cases h
      | ok f2 =>
        rw [h1, h2] at h
        cases h
        rw [List.nodup_append]
        refine ⟨nodup_ReadFileAbsolutePath ToLower windows _ e f1 hwe h1,
          nodup_readEntries ToLower windows path rest f2 hwr h2, ?_⟩
        intro p hp1 hp2
        obtain ⟨n1, r1, -⟩ := (mem_ReadFileAbsolutePath ToLower windows _ e f1 p h1).mp hp1
        obtain ⟨e2, he2, n2, r2, -⟩ := (mem_readEntries ToLower windows path rest f2 p h2).mp hp2
        exact Reaches_disjoint windows path e e2 p _ _ (fun heq => hall e2 he2 heq.symm)
          (hnames e (by simp [NodeList.toList]))
          (hnames e2 (by simp [NodeList.toList, he2])) r1 r2
end

/-- C14 (amended): over a well-formed directory tree every node of which can be
opened and read, `ReadFileAbsolutePath` returns a list; the list holds exactly
the paths of the files (never of a directory) reached from the root whose
lowercased name ends in ".mov" or ".mp4", each path being the root path followed
by the separator and an entry name for every step down, and it holds no path
twice. -/
theorem ReadFileAbsolutePath_lists_media_files (ToLower : List Byte → List Byte)
    (windows : Bool) (root : List Byte) (tree : Node)
    (hread : tree.readable = true)
    (hwf : tree.wellFormed (separatorByte windows) = true) :
    ∃ found, ReadFileAbsolutePath ToLower windows root tree = .ok found
      ∧ (∀ p, p ∈ found ↔
          ∃ name, Reaches windows root tree p (.file name)
            ∧ (HasSuffix (ToLower name) (ascii ".mov")
                || HasSuffix (ToLower name) (ascii ".mp4")) = true)
      ∧ found.Nodup := by
  obtain ⟨found, h⟩ := (ReadFileAbsolutePath_ok_iff ToLower windows root tree).mpr hread
  exact ⟨found, h, fun p => mem_ReadFileAbsolutePath ToLower windows root tree found p h,
    nodup_ReadFileAbsolutePath ToLower windows root tree found hwf h⟩

/-- C14 (amended), at the directory "/v" holding the files "A.MOV" and "b.txt"
and the directory "x.mov", which holds the file "c.Mp4": the two movie files are
listed, the directory "x.mov" and the file "b.txt" are not. -/
theorem ReadFileAbsolutePath_lists_media_files_witness :
    Node.readable
      (.dir (ascii "v") (.cons (.file (ascii "A.MOV")) (.cons (.file (ascii "b.txt"))
        (.cons (.dir (ascii "x.mov") (.cons (.file (ascii "c.Mp4")) .nil)) .nil)))) = true
    ∧ Node.wellFormed (separatorByte false)
      (.dir (ascii "v") (.cons (.file (ascii "A.MOV")) (.cons (.file (ascii "b.txt"))
        (.cons (.dir (ascii "x.mov") (.cons (.file (ascii "c.Mp4")) .nil)) .nil)))) = true
    ∧ (∃ found, ReadFileAbsolutePath toLowerASCII false (ascii "/v")
          (.dir (ascii "v") (.cons (.file (ascii "A.MOV")) (.cons (.file (ascii "b.txt"))
            (.cons (.dir (ascii "x.mov") (.cons (.file (ascii "c.Mp4")) .nil)) .nil))))
          = .ok found
        ∧ (∀ p, p ∈ found ↔
            ∃ name, Reaches false (ascii "/v")
              (.dir (ascii "v") (.cons (.file (ascii "A.MOV")) (.cons (.file (ascii "b.txt"))
                (.cons (.dir (ascii "x.mov") (.cons (.file (ascii "c.Mp4")) .nil)) .nil))))
              p (.file name)
              ∧ (HasSuffix (toLowerASCII name) (ascii ".mov")
                  || HasSuffix (toLowerASCII name) (ascii ".mp4")) = true)
        ∧ found.Nodup)
    ∧ ReadFileAbsolutePath toLowerASCII false (ascii "/v")
        (.dir (ascii "v") (.cons (.file (ascii "A.MOV")) (.cons (.file (ascii "b.txt"))
          (.cons (.dir (ascii "x.mov") (.cons (.file (ascii "c.Mp4")) .nil)) .nil))))
      = .ok [ascii "/v/A.MOV", ascii "/v/x.mov/c.Mp4"] :=
  ⟨by decide, by decide,
   ReadFileAbsolutePath_lists_media_files toLowerASCII false (ascii "/v")
     (.dir (ascii "v") (.cons (.file (ascii "A.MOV")) (.cons (.file (ascii "b.txt"))
       (.cons (.dir (ascii "x.mov") (.cons (.file (ascii "c.Mp4")) .nil)) .nil))))
     (by decide) (by decide),
   by decide⟩

/-- C14 as stated fails: the directory "/v" holds an entry "a" that `os.Open`
returns an error for and the file "b.mov". The file "b.mov" is reached from the
root and its name ends in ".mov", but the call for the entry "a" panics and
`ReadFileAbsolutePath` returns no list. -/
theorem ReadFileAbsolutePath_panics_on_unopenable_entry :
    ReadFileAbsolutePath toLowerASCII false (ascii "/v")
        (.dir (ascii "v") (.cons (.openFails (ascii "a")) (.cons (.file (ascii "b.mov")) .nil)))
      = .error .open
    ∧ Reaches false (ascii "/v")
        (.dir (ascii "v") (.cons (.openFails (ascii "a")) (.cons (.file (ascii "b.mov")) .nil)))
        (ascii "/v/b.mov") (.file (ascii "b.mov"))
    ∧ (HasSuffix (toLowerASCII (ascii "b.mov")) (ascii ".mov")
        || HasSuffix (toLowerASCII (ascii "b.mov")) (ascii ".mp4")) = true :=
  ⟨by decide,
   Reaches.step (ascii "/v") (ascii "v") _ (.file (ascii "b.mov")) _ _
     (by simp [NodeList.toList]) (Reaches.here _ _),
   by decide⟩

/-! ## The scan as a function of the stream -/

theorem afterMoov_data (r : ReadSeeker) (buf : List Byte) (hb : buf.length = 8) :
    (afterMoov r buf).2.data = r.data := by
  unfold afterMoov
  cases hr : r.Read buf with
  | error e => rfl
  | ok v =>
    obtain ⟨n1, buf1, r1⟩ := v
    obtain ⟨hl, hd, -, -, -⟩ := Read_length r r1 buf buf1 n1 hb hr
    simp only
    split_ifs
    · cases hr2 : r1.Read buf1 with
      | error e => exact hd
      | ok v2 =>
        obtain ⟨n2, buf2, r2⟩ := v2
        obtain ⟨-, hd2, -, -, -⟩ := Read_length r1 r2 buf1 buf2 n2 hl hr2
        exact hd2.trans hd
    · exact hd
    · exact hd
    · exact hd

/-- The scan leaves the contents of the stream as they were. -/
theorem getVideoCreationTimeMetadata_data (fuel : Nat) (r0 r : ReadSeeker)
    (res : Except ScanError Time)
    (h : getVideoCreationTimeMetadata fuel r0 = some (res, r)) : r.data = r0.data := by
  unfold getVideoCreationTimeMetadata at h
  cases hl : scanLoop fuel r0 (List.replicate 8 0) with
  | none => rw [hl] at h; cases h
  | some v =>
    obtain ⟨lres, r1⟩ := v
    obtain ⟨hd, hb⟩ := scanLoop_inv fuel r0 r1 _ lres (by simp) hl
    rw [hl] at h
    cases lres with
    | error e =>
      simp only [Option.some.injEq, Prod.mk.injEq] at h
      rw [← h.2]; exact hd
    | ok buf =>
      simp only [Option.some.injEq] at h
      have := afterMoov_data r1 buf (hb buf rfl)
      rw [h] at this
      exact this.trans hd

/-- More fuel does not change what the scan returns. -/
theorem getVideoCreationTimeMetadata_mono (fuel k : Nat) (r0 : ReadSeeker)
    (out : Except ScanError Time × ReadSeeker)
    (h : getVideoCreationTimeMetadata fuel r0 = some out) :
    getVideoCreationTimeMetadata (fuel + k) r0 = some out := by
  unfold getVideoCreationTimeMetadata at h ⊢
  cases hl : scanLoop fuel r0 (List.replicate 8 0) with
  | none => rw [hl] at h; cases h
  | some v =>
    rw [scanLoop_mono fuel k r0 _ v hl]
    rw [hl] at h
    exact h

/-- C15: when a scan from offset 0 returns, it has left the contents of the
stream as they were, and a second scan of the stream it leaves, from offset 0
again, returns the same result and stops at the same offset, with the same fuel
and with any other fuel under which it returns. -/
theorem scan_twice_same_result (data : List Byte) (fuel : Nat) (res : Except ScanError Time)
    (r : ReadSeeker)
    (h : getVideoCreationTimeMetadata fuel (openAt0 data) = some (res, r)) :
    r.data = data
    ∧ getVideoCreationTimeMetadata fuel (openAt0 r.data) = some (res, r)
    ∧ ∀ fuel2 out, getVideoCreationTimeMetadata fuel2 (openAt0 r.data) = some out →
        out = (res, r) := by
  have hd : r.data = data := getVideoCreationTimeMetadata_data fuel _ r res h
  rw [hd]
  refine ⟨rfl, h, fun fuel2 out h2 => ?_⟩
  rcases Nat.le_total fuel fuel2 with hle | hle
  · obtain ⟨k, rfl⟩ : ∃ k, fuel2 = fuel + k := ⟨fuel2 - fuel, by omega⟩
    rw [getVideoCreationTimeMetadata_mono fuel k _ _ h] at h2
    exact (Option.some.inj h2).symm
  · obtain ⟨k, rfl⟩ : ∃ k, fuel = fuel2 + k := ⟨fuel - fuel2, by omega⟩
    rw [getVideoCreationTimeMetadata_mono fuel2 k _ _ h2] at h
    exact Option.some.inj h

/-- C15, at the stream of a "free" atom, a "moov" header, an "mvhd" header and
a payload holding `3000000000`. -/
theorem scan_twice_same_result_witness :
    (ReadSeeker.mk [0, 0, 0, 16, 102, 114, 101, 101, 0, 0, 0, 0, 0, 0, 0, 0,
        0, 0, 0, 108, 109, 111, 111, 118, 0, 0, 0, 100, 109, 118, 104, 100,
        0, 0, 0, 0, 178, 208, 94, 0] 40).data
      = [0, 0, 0, 16, 102, 114, 101, 101, 0, 0, 0, 0, 0, 0, 0, 0,
        0, 0, 0, 108, 109, 111, 111, 118, 0, 0, 0, 100, 109, 118, 104, 100,
        0, 0, 0, 0, 178, 208, 94, 0]
    ∧ getVideoCreationTimeMetadata 2
        (openAt0 (ReadSeeker.mk [0, 0, 0, 16, 102, 114, 101, 101, 0, 0, 0, 0, 0, 0, 0, 0,
          0, 0, 0, 108, 109, 111, 111, 118, 0, 0, 0, 100, 109, 118, 104, 100,
          0, 0, 0, 0, 178, 208, 94, 0] 40).data)
      = some (.ok 917155200,
          ReadSeeker.mk [0, 0, 0, 16, 102, 114, 101, 101, 0, 0, 0, 0, 0, 0, 0, 0,
            0, 0, 0, 108, 109, 111, 111, 118, 0, 0, 0, 100, 109, 118, 104, 100,
            0, 0, 0, 0, 178, 208, 94, 0] 40)
    ∧ ∀ fuel2 out, getVideoCreationTimeMetadata fuel2
        (openAt0 (ReadSeeker.mk [0, 0, 0, 16, 102, 114, 101, 101, 0, 0, 0, 0, 0, 0, 0, 0,
          0, 0, 0, 108, 109, 111, 111, 118, 0, 0, 0, 100, 109, 118, 104, 100,
          0, 0, 0, 0, 178, 208, 94, 0] 40).data) = some out →
        out = (.ok 917155200,
          ReadSeeker.mk [0, 0, 0, 16, 102, 114, 101, 101, 0, 0, 0, 0, 0, 0, 0, 0,
            0, 0, 0, 108, 109, 111, 111, 118, 0, 0, 0, 100, 109, 118, 104, 100,
            0, 0, 0, 0, 178, 208, 94, 0] 40) :=
  scan_twice_same_result [0, 0, 0, 16, 102, 114, 101, 101, 0, 0, 0, 0, 0, 0, 0, 0,
      0, 0, 0, 108, 109, 111, 111, 118, 0, 0, 0, 100, 109, 118, 104, 100,
      0, 0, 0, 0, 178, 208, 94, 0] 2 (.ok 917155200)
    (ReadSeeker.mk [0, 0, 0, 16, 102, 114, 101, 101, 0, 0, 0, 0, 0, 0, 0, 0,
      0, 0, 0, 108, 109, 111, 111, 118, 0, 0, 0, 100, 109, 118, 104, 100,
      0, 0, 0, 0, 178, 208, 94, 0] 40) (by decide)

/-! ## One iteration of the loop -/

/-- C16: after a full header read at offset `p` with a tag other than "moov"
and the size field `s`, the seek offset `s - 8` is computed without wraparound,
the seek is carried out for every `s` and leaves the offset at `p + s`, where
the next iteration reads; for `s < 8` the seek goes backward. -/
theorem next_header_at_offset_plus_size (data buf : List Byte) (p fuel : Nat)
    (hb : buf.length = 8) (hp : p + 8 ≤ data.length)
    (ht : (data.drop (p + 4)).take 4 ≠ movieResourceAtomType) :
    int64 (int64 (Uint32 (data.drop p) : Int) - 8) = (Uint32 (data.drop p) : Int) - 8
    ∧ (ReadSeeker.mk data (p + 8)).Seek (int64 (int64 (Uint32 (data.drop p) : Int) - 8))
        = ReadSeeker.mk data (p + Uint32 (data.drop p))
    ∧ scanLoop (fuel + 1) (ReadSeeker.mk data p) buf
        = scanLoop fuel (ReadSeeker.mk data (p + Uint32 (data.drop p))) ((data.drop p).take 8)
    ∧ (Uint32 (data.drop p) < 8 →
        int64 (int64 (Uint32 (data.drop p) : Int) - 8) < 0
        ∧ p + Uint32 (data.drop p) < p + 8) := by
  have hoff := seekOffset_eq (Uint32 (data.drop p)) (Uint32_lt _)
  have hseek : (ReadSeeker.mk data (p + 8)).Seek
      (int64 (int64 (Uint32 (data.drop p) : Int) - 8))
      = ReadSeeker.mk data (p + Uint32 (data.drop p)) := by
    rw [Seek_mk, hoff, if_pos (by omega)]
    have h : (((p + 8 : Nat) : Int) + ((Uint32 (data.drop p) : Int) - 8)).toNat
        = p + Uint32 (data.drop p) := by omega
    rw [h]
  have hr := Read_full (ReadSeeker.mk data p) buf hb hp
  simp only at hr
  have ht2 : (((data.drop p).take 8).drop 4).take 4 ≠ movieResourceAtomType := by
    rw [take_drop_header]; exact ht
  refine ⟨hoff, hseek, ?_, fun hs => ⟨by rw [hoff]; omega, by omega⟩⟩
  rw [scanLoop_step fuel _ _ buf _ _ hr ht2, Uint32_take _ 8 (by omega), hseek]

/-- C16, at a header of size 1 tagged "free" at offset 0: the next header is
read at offset 1. -/
theorem next_header_at_offset_plus_size_witness :
    int64 (int64 (Uint32 (([0, 0, 0, 1, 102, 114, 101, 101, 0] : List Byte).drop 0) : Int) - 8)
      = (Uint32 (([0, 0, 0, 1, 102, 114, 101, 101, 0] : List Byte).drop 0) : Int) - 8
    ∧ (ReadSeeker.mk [0, 0, 0, 1, 102, 114, 101, 101, 0] (0 + 8)).Seek
        (int64 (int64 (Uint32 (([0, 0, 0, 1, 102, 114, 101, 101, 0] : List Byte).drop 0) : Int)
          - 8))
        = ReadSeeker.mk [0, 0, 0, 1, 102, 114, 101, 101, 0]
            (0 + Uint32 (([0, 0, 0, 1, 102, 114, 101, 101, 0] : List Byte).drop 0))
    ∧ scanLoop (3 + 1) (ReadSeeker.mk [0, 0, 0, 1, 102, 114, 101, 101, 0] 0) (List.replicate 8 0)
        = scanLoop 3 (ReadSeeker.mk [0, 0, 0, 1, 102, 114, 101, 101, 0]
            (0 + Uint32 (([0, 0, 0, 1, 102, 114, 101, 101, 0] : List Byte).drop 0)))
            ((([0, 0, 0, 1, 102, 114, 101, 101, 0] : List Byte).drop 0).take 8)
    ∧ (Uint32 (([0, 0, 0, 1, 102, 114, 101, 101, 0] : List Byte).drop 0) < 8 →
        int64 (int64 (Uint32 (([0, 0, 0, 1, 102, 114, 101, 101, 0] : List Byte).drop 0) : Int)
          - 8) < 0
        ∧ 0 + Uint32 (([0, 0, 0, 1, 102, 114, 101, 101, 0] : List Byte).drop 0) < 0 + 8) :=
  next_header_at_offset_plus_size [0, 0, 0, 1, 102, 114, 101, 101, 0] (List.replicate 8 0) 0 3
    (by decide) (by decide) (by decide)

/-! ## Termination when the sizes are at least 8 -/

theorem readOffsets_step (fuel : Nat) (r r1 : ReadSeeker) (buf buf1 : List Byte) (n1 : Nat)
    (hr : r.Read buf = .ok (n1, buf1, r1))
    (ht : (buf1.drop 4).take 4 ≠ movieResourceAtomType) :
    readOffsets (fuel + 1) r buf
      = r.pos :: readOffsets fuel (r1.Seek (int64 (int64 (Uint32 buf1 : Int) - 8))) buf1 := by
  rw [readOffsets, hr]
  simp only [if_neg ht]

/-- When every header the loop looks at that is not tagged "moov" declares a
size of at least 8, the offsets at which the loop reads grow strictly. -/
theorem readOffsets_increasing (fuel : Nat) : ∀ (r : ReadSeeker) (buf : List Byte),
    buf.length = 8 →
    (∀ b ∈ inspectedHeaders fuel r buf,
      (b.drop 4).take 4 ≠ movieResourceAtomType → 8 ≤ Uint32 b) →
    (readOffsets fuel r buf).Pairwise (· < ·) ∧ ∀ x ∈ readOffsets fuel r buf, r.pos ≤ x := by
  induction fuel with
  | zero => intro r buf _ _; simp [readOffsets]
  | succ n ih =>
    intro r buf hb hins
    cases hr : r.Read buf with
    | error e =>
      rw [readOffsets, hr]
      simp
    | ok v =>
      obtain ⟨n1, buf1, r1⟩ := v
      obtain ⟨hl, hd, hp, hpos, -⟩ := Read_length r r1 buf buf1 n1 hb hr
      by_cases ht : (buf1.drop 4).take 4 = movieResourceAtomType
      · rw [readOffsets, hr]
        simp [ht]
      · have hsz := hins _ (inspectedHeaders_head n r r1 buf buf1 n1 hr) ht
        rw [inspectedHeaders_step n r r1 buf buf1 n1 hr ht] at hins
        rw [readOffsets_step n r r1 buf buf1 n1 hr ht]
        have hseek := Seek_size r1 _ (Uint32_lt buf1)
        rw [if_pos (by omega)] at hseek
        obtain ⟨h1, h2⟩ := ih _ buf1 hl (fun b hb2 => hins b (List.mem_cons_of_mem _ hb2))
        rw [hseek] at h2
        refine ⟨List.pairwise_cons.mpr ⟨fun x hx => ?_, h1⟩, fun x hx => ?_⟩
        · have := h2 x hx
          omega
        · rcases List.mem_cons.mp hx with h | h
          · omega
          · have := h2 x h
            omega

/-- Under the same condition the loop ends within `(length + 7 - pos) / 8 + 1`
iterations: with `io.EOF`, or through `break` within `(length + 7 - pos) / 8`
iterations. -/
theorem scanLoop_bound (fuel : Nat) : ∀ (r : ReadSeeker) (buf : List Byte),
    buf.length = 8 → (r.data.length + 7 - r.pos) / 8 + 1 ≤ fuel →
    (∀ b ∈ inspectedHeaders fuel r buf,
      (b.drop 4).take 4 ≠ movieResourceAtomType → 8 ≤ Uint32 b) →
    (∃ q, scanLoop fuel r buf = some (.error .EOF, ReadSeeker.mk r.data q))
    ∨ ∃ k buf2 r2, k ≤ (r.data.length + 7 - r.pos) / 8
        ∧ scanLoop k r buf = some (.ok buf2, r2) := by
  induction fuel with
  | zero => intro r buf _ hf _; omega
  | succ n ih =>
    intro r buf hb hf hins
    by_cases hp : r.pos < r.data.length
    · have hr := Read_ok r buf hb hp
      obtain ⟨hl, hd, -, hpos, -⟩ := Read_length r _ buf _ _ hb hr
      by_cases ht : ((((r.data.drop r.pos).take 8
          ++ buf.drop (min 8 (r.data.length - r.pos))).drop 4).take 4) = movieResourceAtomType
      · have hloop1 : scanLoop 1 r buf
            = some (.ok ((r.data.drop r.pos).take 8 ++ buf.drop (min 8 (r.data.length - r.pos))),
                { r with pos := r.pos + min 8 (r.data.length - r.pos) }) := by
          rw [scanLoop, hr]
          simp only [if_pos ht]
        exact Or.inr ⟨1, _, _, by omega, hloop1⟩
      · have hsz := hins _ (inspectedHeaders_head n r _ buf _ _ hr) ht
        rw [inspectedHeaders_step n r _ buf _ _ hr ht] at hins
        have hseek := Seek_size (ReadSeeker.mk r.data (r.pos + min 8 (r.data.length - r.pos)))
          _ (Uint32_lt ((r.data.drop r.pos).take 8 ++ buf.drop (min 8 (r.data.length - r.pos))))
        rw [if_pos (by omega)] at hseek
        have hdata := Seek_data (ReadSeeker.mk r.data (r.pos + min 8 (r.data.length - r.pos)))
          (int64 (int64 (Uint32 ((r.data.drop r.pos).take 8
            ++ buf.drop (min 8 (r.data.length - r.pos))) : Int) - 8))
        simp only at hseek hdata
        rcases ih _ _ hl (by rw [hdata, hseek]; omega)
          (fun b hb2 => hins b (List.mem_cons_of_mem _ hb2)) with ⟨q, hq⟩ | ⟨k, buf2, r2, hk, hres⟩
        · left
          rw [hdata] at hq
          exact ⟨q, by rw [scanLoop_step n r _ buf _ _ hr ht]; exact hq⟩
        · right
          rw [hdata, hseek] at hk
          cases k with
          | zero => simp [scanLoop] at hres
          | succ k2 =>
            refine ⟨k2 + 1 + 1, buf2, r2, by omega, ?_⟩
            rw [scanLoop_step (k2 + 1) r _ buf _ _ hr ht]
            exact hres
    · left
      refine ⟨r.pos, ?_⟩
      rw [scanLoop, Read_EOF r buf (by omega)]

/-- C17: when every header the loop looks at in its first `length / 8 + 2`
iterations that is not tagged "moov" declares a size of at least 8, the offsets
at which the loop reads grow strictly, and the function returns under every fuel
from `length / 8 + 2` on: either `io.EOF` from the loop, or, the loop having
left through `break` within `length / 8 + 1` iterations, what the code after
the loop returns (one more header read). -/
theorem scan_terminates_within_bound (data : List Byte)
    (h : ∀ b ∈ inspectedHeaders (data.length / 8 + 2) (openAt0 data) (List.replicate 8 0),
      (b.drop 4).take 4 ≠ movieResourceAtomType → 8 ≤ Uint32 b) :
    (readOffsets (data.length / 8 + 2) (openAt0 data) (List.replicate 8 0)).Pairwise (· < ·)
    ∧ ∃ out, (∀ fuel, data.length / 8 + 2 ≤ fuel →
          getVideoCreationTimeMetadata fuel (openAt0 data) = some out)
        ∧ ((∃ q, out = (.error .EOF, ReadSeeker.mk data q))
          ∨ ∃ k buf r, k ≤ data.length / 8 + 1
              ∧ scanLoop k (openAt0 data) (List.replicate 8 0) = some (.ok buf, r)
              ∧ out = afterMoov r buf) := by
  refine ⟨(readOffsets_increasing _ (openAt0 data) _ (by simp) h).1, ?_⟩
  rcases scanLoop_bound (data.length / 8 + 2) (openAt0 data) (List.replicate 8 0) (by simp)
    (by simp only [openAt0]; omega) h with ⟨q, hq⟩ | ⟨k, buf, r, hk, hres⟩
  · refine ⟨(.error .EOF, ReadSeeker.mk data q), fun fuel hfuel => ?_, Or.inl ⟨q, rfl⟩⟩
    obtain ⟨j, rfl⟩ : ∃ j, fuel = data.length / 8 + 2 + j :=
      ⟨fuel - (data.length / 8 + 2), by omega⟩
    unfold getVideoCreationTimeMetadata
    rw [scanLoop_mono _ j _ _ _ hq]
    rfl
  · simp only [openAt0] at hk
    refine ⟨afterMoov r buf, fun fuel hfuel => ?_, Or.inr ⟨k, buf, r, by omega, hres, rfl⟩⟩
    obtain ⟨j, rfl⟩ : ∃ j, fuel = k + j := ⟨fuel - k, by omega⟩
    exact getVideoCreationTimeMetadata_of_break _ _ _ _ (scanLoop_mono k j _ _ _ hres)

/-- C17, at the stream of a "free" atom of size 16, a "moov" header, an "mvhd"
header and a payload of 8 bytes. -/
theorem scan_terminates_within_bound_witness :
    (∀ b ∈ inspectedHeaders (([0, 0, 0, 16, 102, 114, 101, 101, 0, 0, 0, 0, 0, 0, 0, 0,
          0, 0, 0, 108, 109, 111, 111, 118, 0, 0, 0, 100, 109, 118, 104, 100,
          0, 0, 0, 0, 178, 208, 94, 0] : List Byte).length / 8 + 2)
        (openAt0 [0, 0, 0, 16, 102, 114, 101, 101, 0, 0, 0, 0, 0, 0, 0, 0,
          0, 0, 0, 108, 109, 111, 111, 118, 0, 0, 0, 100, 109, 118, 104, 100,
          0, 0, 0, 0, 178, 208, 94, 0]) (List.replicate 8 0),
      (b.drop 4).take 4 ≠ movieResourceAtomType → 8 ≤ Uint32 b)
    ∧ ((readOffsets (([0, 0, 0, 16, 102, 114, 101, 101, 0, 0, 0, 0, 0, 0, 0, 0,
          0, 0, 0, 108, 109, 111, 111, 118, 0, 0, 0, 100, 109, 118, 104, 100,
          0, 0, 0, 0, 178, 208, 94, 0] : List Byte).length / 8 + 2)
        (openAt0 [0, 0, 0, 16, 102, 114, 101, 101, 0, 0, 0, 0, 0, 0, 0, 0,
          0, 0, 0, 108, 109, 111, 111, 118, 0, 0, 0, 100, 109, 118, 104, 100,
          0, 0, 0, 0, 178, 208, 94, 0]) (List.replicate 8 0)).Pairwise (· < ·)
      ∧ ∃ out, (∀ fuel, ([0, 0, 0, 16, 102, 114, 101, 101, 0, 0, 0, 0, 0, 0, 0, 0,
            0, 0, 0, 108, 109, 111, 111, 118, 0, 0, 0, 100, 109, 118, 104, 100,
            0, 0, 0, 0, 178, 208, 94, 0] : List Byte).length / 8 + 2 ≤ fuel →
            getVideoCreationTimeMetadata fuel
              (openAt0 [0, 0, 0, 16, 102, 114, 101, 101, 0, 0, 0, 0, 0, 0, 0, 0,
                0, 0, 0, 108, 109, 111, 111, 118, 0, 0, 0, 100, 109, 118, 104, 100,
                0, 0, 0, 0, 178, 208, 94, 0]) = some out)
          ∧ ((∃ q, out = (.error .EOF,
                ReadSeeker.mk [0, 0, 0, 16, 102, 114, 101, 101, 0, 0, 0, 0, 0, 0, 0, 0,
                  0, 0, 0, 108, 109, 111, 111, 118, 0, 0, 0, 100, 109, 118, 104, 100,
                  0, 0, 0, 0, 178, 208, 94, 0] q))
            ∨ ∃ k buf r, k ≤ ([0, 0, 0, 16, 102, 114, 101, 101, 0, 0, 0, 0, 0, 0, 0, 0,
                  0, 0, 0, 108, 109, 111, 111, 118, 0, 0, 0, 100, 109, 118, 104, 100,
                  0, 0, 0, 0, 178, 208, 94, 0] : List Byte).length / 8 + 1
                ∧ scanLoop k
                    (openAt0 [0, 0, 0, 16, 102, 114, 101, 101, 0, 0, 0, 0, 0, 0, 0, 0,
                      0, 0, 0, 108, 109, 111, 111, 118, 0, 0, 0, 100, 109, 118, 104, 100,
                      0, 0, 0, 0, 178, 208, 94, 0]) (List.replicate 8 0)
                  = some (.ok buf, r)
                ∧ out = afterMoov r buf)) :=
  ⟨by decide, scan_terminates_within_bound _ (by decide)⟩

/-! ## The bytes the code after the loop depends on -/

/-- A `Read` that returns no error leaves in places 5-8 of the buffer the bytes
found at offsets `pos + 4` to `pos + 7`, as far as the stream holds them, and
behind them what those places held before. -/
theorem Read_ok_tail (r : ReadSeeker) (buf : List Byte) (hb : buf.length = 8)
    (hp : r.pos < r.data.length) :
    ∃ c : List Byte,
      r.Read buf = .ok (min 8 (r.data.length - r.pos), c,
        ReadSeeker.mk r.data (r.pos + min 8 (r.data.length - r.pos)))
      ∧ c.length = 8
      ∧ c.drop 4 = (r.data.drop (r.pos + 4)).take 4
          ++ (buf.drop 4).drop ((r.data.drop (r.pos + 4)).take 4).length := by
  have hr := Read_ok r buf hb hp
  obtain ⟨hl, -, -, -, -⟩ := Read_length r _ buf _ _ hb hr
  refine ⟨_, hr, hl, ?_⟩
  rw [List.drop_append_eq_append_drop, List.drop_take, List.drop_drop, List.drop_drop,
    List.drop_drop]
  have h1 : ((r.data.drop r.pos).take 8).length = min 8 (r.data.length - r.pos) := by simp
  have h2 : ((r.data.drop (r.pos + 4)).take 4).length = min 4 (r.data.length - (r.pos + 4)) := by
    simp
  rw [h1, h2]
  congr 2
  omega

/-- What the code after the loop returns, and where it stops, depends only on
the length of the stream, on places 5-8 of the buffer, on the tag of the child
header and on the bytes from the fifth byte of the payload on. -/
theorem afterMoov_congr (d1 d2 : List Byte) (p : Nat) (b1 b2 : List Byte)
    (h1 : b1.length = 8) (h2 : b2.length = 8) (htail : b1.drop 4 = b2.drop 4)
    (hlen : d1.length = d2.length)
    (htag : (d1.drop (p + 4)).take 4 = (d2.drop (p + 4)).take 4)
    (hrest : d1.drop (p + 12) = d2.drop (p + 12)) :
    ∃ (res : Except ScanError Time) (q : Nat),
      afterMoov (ReadSeeker.mk d1 p) b1 = (res, ReadSeeker.mk d1 q)
      ∧ afterMoov (ReadSeeker.mk d2 p) b2 = (res, ReadSeeker.mk d2 q) := by
  by_cases hp : p < d1.length
  · obtain ⟨c1, hr1, hc1, ht1⟩ := Read_ok_tail (ReadSeeker.mk d1 p) b1 h1 hp
    obtain ⟨c2, hr2, hc2, ht2⟩ := Read_ok_tail (ReadSeeker.mk d2 p) b2 h2 (by rw [← hlen]; exact hp)
    simp only at hr1 hr2 ht1 ht2
    have htc : c1.drop 4 = c2.drop 4 := by rw [ht1, ht2, htag, htail]
    rw [← hlen] at hr2
    unfold afterMoov
    rw [hr1, hr2]
    simp only [htc]
    by_cases hm : (c2.drop 4).take 4 = movieHeaderAtomType
    · simp only [if_pos hm]
      by_cases hp2 : p + min 8 (d1.length - p) < d1.length
      · have hmin : min 8 (d1.length - p) = 8 := by omega
        rw [hmin] at hp2 ⊢
        obtain ⟨e1, hs1, -, hu1⟩ := Read_ok_tail (ReadSeeker.mk d1 (p + 8)) c1 hc1 hp2
        obtain ⟨e2, hs2, -, hu2⟩ := Read_ok_tail (ReadSeeker.mk d2 (p + 8)) c2 hc2
          (by rw [← hlen]; exact hp2)
        simp only at hs1 hs2 hu1 hu2
        have hrest2 : d1.drop (p + 8 + 4) = d2.drop (p + 8 + 4) := hrest
        have hte : e1.drop 4 = e2.drop 4 := by rw [hu1, hu2, hrest2, htc]
        rw [← hlen] at hs2
        rw [hs1, hs2]
        simp only [hte]
        exact ⟨_, _, rfl, rfl⟩
      · rw [Read_EOF (ReadSeeker.mk d1 _) c1 (by simp only; omega),
          Read_EOF (ReadSeeker.mk d2 _) c2 (by simp only; omega)]
        exact ⟨_, _, rfl, rfl⟩
    · simp only [if_neg hm]
      split_ifs <;> exact ⟨_, _, rfl, rfl⟩
  · unfold afterMoov
    rw [Read_EOF (ReadSeeker.mk d1 p) b1 (by simp only; omega),
      Read_EOF (ReadSeeker.mk d2 p) b2 (by simp only; omega)]
    exact ⟨_, _, rfl, rfl⟩

theorem buffer_tail_of_tag (b : List Byte) (hb : b.length = 8)
    (ht : (b.drop 4).take 4 = movieResourceAtomType) : b.drop 4 = movieResourceAtomType := by
  rw [← ht, List.take_of_length_le]
  simp only [List.length_drop, hb]
  omega

/-- C18 (amended): on two streams of the same length on each of which the loop
leaves at the "moov" header at offset `m`, and which have the same child tag
(offsets `m + 12` to `m + 15`) and the same bytes from offset `m + 20` on, the
function returns the same result and stops at the same offset: the size field of
the "moov" header, the size field of its first child and the first four bytes
after the child header (version and flags of an "mvhd" payload) play no part. -/
theorem result_independent_of_unread_fields (d1 d2 : List Byte) (m fuel : Nat)
    (b1 b2 : List Byte) (r1 r2 : ReadSeeker)
    (hl1 : scanLoop fuel (openAt0 d1) (List.replicate 8 0) = some (.ok b1, r1))
    (hl2 : scanLoop fuel (openAt0 d2) (List.replicate 8 0) = some (.ok b2, r2))
    (hm1 : r1.pos = m + 8) (hm2 : r2.pos = m + 8) (hlen : d1.length = d2.length)
    (htag : (d1.drop (m + 12)).take 4 = (d2.drop (m + 12)).take 4)
    (hrest : d1.drop (m + 20) = d2.drop (m + 20)) :
    ∃ (res : Except ScanError Time) (q : Nat),
      getVideoCreationTimeMetadata fuel (openAt0 d1) = some (res, ReadSeeker.mk d1 q)
      ∧ getVideoCreationTimeMetadata fuel (openAt0 d2) = some (res, ReadSeeker.mk d2 q) := by
  obtain ⟨hd1, hb1⟩ := scanLoop_inv fuel _ _ _ _ (by simp) hl1
  obtain ⟨hd2, hb2⟩ := scanLoop_inv fuel _ _ _ _ (by simp) hl2
  obtain ⟨ht1, -⟩ := scanLoop_break_header fuel _ _ _ _ (by simp) hl1
  obtain ⟨ht2, -⟩ := scanLoop_break_header fuel _ _ _ _ (by simp) hl2
  have e1 : r1 = ReadSeeker.mk d1 (m + 8) := by
    cases r1; simp only [openAt0] at hd1 hm1; rw [hd1, hm1]
  have e2 : r2 = ReadSeeker.mk d2 (m + 8) := by
    cases r2; simp only [openAt0] at hd2 hm2; rw [hd2, hm2]
  have htail : b1.drop 4 = b2.drop 4 := by
    rw [buffer_tail_of_tag b1 (hb1 b1 rfl) ht1, buffer_tail_of_tag b2 (hb2 b2 rfl) ht2]
  obtain ⟨res, q, ha1, ha2⟩ := afterMoov_congr d1 d2 (m + 8) b1 b2 (hb1 b1 rfl) (hb2 b2 rfl)
    htail hlen htag hrest
  refine ⟨res, q, ?_, ?_⟩
  · rw [getVideoCreationTimeMetadata_of_break fuel _ _ _ hl1, e1, ha1]
  · rw [getVideoCreationTimeMetadata_of_break fuel _ _ _ hl2, e2, ha2]

/-- C18 (amended), at two streams that differ in the three fields: a "moov"
header of size 8 followed by an "mvhd" header and a payload with version byte 1,
and the same with other sizes and version 0; both give `917155200`. -/
theorem result_independent_of_unread_fields_witness :
    (∃ (res : Except ScanError Time) (q : Nat),
      getVideoCreationTimeMetadata 1
          (openAt0 [0, 0, 0, 8, 109, 111, 111, 118, 0, 0, 0, 16, 109, 118, 104, 100,
            1, 0, 0, 0, 178, 208, 94, 0])
        = some (res, ReadSeeker.mk [0, 0, 0, 8, 109, 111, 111, 118, 0, 0, 0, 16, 109, 118, 104, 100,
            1, 0, 0, 0, 178, 208, 94, 0] q)
      ∧ getVideoCreationTimeMetadata 1
          (openAt0 [0, 0, 0, 108, 109, 111, 111, 118, 0, 0, 0, 100, 109, 118, 104, 100,
            0, 0, 0, 0, 178, 208, 94, 0])
        = some (res, ReadSeeker.mk [0, 0, 0, 108, 109, 111, 111, 118, 0, 0, 0, 100,
            109, 118, 104, 100, 0, 0, 0, 0, 178, 208, 94, 0] q))
    ∧ getVideoCreationTimeMetadata 1
        (openAt0 [0, 0, 0, 8, 109, 111, 111, 118, 0, 0, 0, 16, 109, 118, 104, 100,
          1, 0, 0, 0, 178, 208, 94, 0])
      = some (.ok 917155200,
          ReadSeeker.mk [0, 0, 0, 8, 109, 111, 111, 118, 0, 0, 0, 16, 109, 118, 104, 100,
            1, 0, 0, 0, 178, 208, 94, 0] 24) :=
  ⟨result_independent_of_unread_fields
      [0, 0, 0, 8, 109, 111, 111, 118, 0, 0, 0, 16, 109, 118, 104, 100, 1, 0, 0, 0, 178, 208, 94, 0]
      [0, 0, 0, 108, 109, 111, 111, 118, 0, 0, 0, 100, 109, 118, 104, 100,
        0, 0, 0, 0, 178, 208, 94, 0] 0 1
      [0, 0, 0, 8, 109, 111, 111, 118] [0, 0, 0, 108, 109, 111, 111, 118]
      (ReadSeeker.mk [0, 0, 0, 8, 109, 111, 111, 118, 0, 0, 0, 16, 109, 118, 104, 100,
        1, 0, 0, 0, 178, 208, 94, 0] 8)
      (ReadSeeker.mk [0, 0, 0, 108, 109, 111, 111, 118, 0, 0, 0, 100, 109, 118, 104, 100,
        0, 0, 0, 0, 178, 208, 94, 0] 8)
      (by decide) (by decide) rfl rfl (by decide) (by decide) (by decide),
   by decide⟩

/-- C18 as stated fails: in the first stream a header of size 4 at offset 0 is
followed by the "moov" header at offset 4, whose size field is `8`; the loop
leaves at that header and the function returns `917155200`. The second stream
differs from the first in that size field only, which now holds the bytes
"moov": the first header read, at offset 0, has these bytes as its tag, the
loop leaves there, and the function returns "Did not find movie header atom
(mvhd)". -/
theorem moov_size_field_read_as_tag :
    scanLoop 2
        (openAt0 [0, 0, 0, 4, 0, 0, 0, 8, 109, 111, 111, 118, 0, 0, 0, 16, 109, 118, 104, 100,
          0, 0, 0, 0, 178, 208, 94, 0]) (List.replicate 8 0)
      = some (.ok [0, 0, 0, 8, 109, 111, 111, 118],
          ReadSeeker.mk [0, 0, 0, 4, 0, 0, 0, 8, 109, 111, 111, 118, 0, 0, 0, 16,
            109, 118, 104, 100, 0, 0, 0, 0, 178, 208, 94, 0] 12)
    ∧ getVideoCreationTimeMetadata 2
        (openAt0 [0, 0, 0, 4, 0, 0, 0, 8, 109, 111, 111, 118, 0, 0, 0, 16, 109, 118, 104, 100,
          0, 0, 0, 0, 178, 208, 94, 0])
      = some (.ok 917155200,
          ReadSeeker.mk [0, 0, 0, 4, 0, 0, 0, 8, 109, 111, 111, 118, 0, 0, 0, 16,
            109, 118, 104, 100, 0, 0, 0, 0, 178, 208, 94, 0] 28)
    ∧ getVideoCreationTimeMetadata 2
        (openAt0 [0, 0, 0, 4, 109, 111, 111, 118, 109, 111, 111, 118, 0, 0, 0, 16,
          109, 118, 104, 100, 0, 0, 0, 0, 178, 208, 94, 0])
      = some (.error .didNotFindMovieHeader,
          ReadSeeker.mk [0, 0, 0, 4, 109, 111, 111, 118, 109, 111, 111, 118, 0, 0, 0, 16,
            109, 118, 104, 100, 0, 0, 0, 0, 178, 208, 94, 0] 16)
    ∧ ([0, 0, 0, 4, 109, 111, 111, 118, 109, 111, 111, 118, 0, 0, 0, 16,
          109, 118, 104, 100, 0, 0, 0, 0, 178, 208, 94, 0] : List Byte)
      = ([0, 0, 0, 4, 0, 0, 0, 8, 109, 111, 111, 118, 0, 0, 0, 16, 109, 118, 104, 100,
          0, 0, 0, 0, 178, 208, 94, 0] : List Byte).take 4 ++ movieResourceAtomType
        ++ ([0, 0, 0, 4, 0, 0, 0, 8, 109, 111, 111, 118, 0, 0, 0, 16, 109, 118, 104, 100,
          0, 0, 0, 0, 178, 208, 94, 0] : List Byte).drop 8 := by
  decide

/-- C19 (the code at a failing input): the file "x.mov" in the directory
"/x.mov". `strings.ReplaceAll` replaces the file name wherever it occurs in the
path, so that the rename target has the new name in the place of the directory
name as well. -/
theorem rename_target_alters_directory (Format : Time → List Byte) :
    perFile Format 1 (ascii "/x.mov/x.mov") (ascii "x.mov")
        [0, 0, 0, 108, 109, 111, 111, 118, 0, 0, 0, 100, 109, 118, 104, 100,
          0, 0, 0, 0, 178, 208, 94, 0]
      = some [.printMovie (ascii "/x.mov/x.mov") 917155200
            (ascii "VID_" ++ Format 917155200 ++ ascii "_" ++ ascii "x.mov"),
          .close,
          .rename (ascii "/x.mov/x.mov")
            (ascii "/" ++ (ascii "VID_" ++ Format 917155200 ++ ascii "_" ++ ascii "x.mov")
              ++ ascii "/" ++ (ascii "VID_" ++ Format 917155200 ++ ascii "_" ++ ascii "x.mov")),
          .printRenameResult] := by
  have h : perFile Format 1 (ascii "/x.mov/x.mov") (ascii "x.mov")
        [0, 0, 0, 108, 109, 111, 111, 118, 0, 0, 0, 100, 109, 118, 104, 100,
          0, 0, 0, 0, 178, 208, 94, 0]
      = some [.printMovie (ascii "/x.mov/x.mov") 917155200
            (ascii "VID_" ++ Format 917155200 ++ ascii "_" ++ ascii "x.mov"),
          .close,
          .rename (ascii "/x.mov/x.mov")
            (ascii "/" ++ ((ascii "VID_" ++ Format 917155200 ++ ascii "_" ++ ascii "x.mov")
              ++ (ascii "/" ++ ((ascii "VID_" ++ Format 917155200 ++ ascii "_" ++ ascii "x.mov")
                ++ [])))),
          .printRenameResult] := rfl
  rw [h]
  simp only [List.append_nil, List.append_assoc]

end MediaRenamer
